import Mathlib

/-!
Verification of the subtitle-editor core of the Ai-Subtitle-Generator
repository: the SRT codec (`secondsToTimeString`, `timeStringToSeconds`,
`parseSrt`, `toSrt` in `src/utils/srtParser.ts`), the waveform peak
extractor and the pointer-drag logic (`extractPeaks`, `handleMouseDown`,
`handleMouseMove` in `src/components/SubtitlePreview.tsx`), and the
subtitle-update swap fix (`handleSubtitleUpdate`).

JavaScript numbers are modelled as exact rationals (`ℚ`), with `NaN`
modelled as the `none` case of `Option ℚ` where the code tests `isNaN`.
JavaScript strings are modelled as `String` / `List Char`; the string
primitives used by the code (`trim`, `split`, `replace`, `padStart`,
`parseFloat`, the two regular expressions) are given explicit models
below, each named `js...` after the primitive it models.
-/

namespace SubGen

/-- JS `Math.floor`. -/
def jsFloor (q : ℚ) : ℤ := ⌊q⌋

/-- JS `Math.round`: rounds half-up (towards +∞). -/
def jsRound (q : ℚ) : ℤ := ⌊q + 1/2⌋

/-- JS truncation towards zero (the integer part used by `%`). -/
def jsTrunc (q : ℚ) : ℤ := if q < 0 then -⌊-q⌋ else ⌊q⌋

/-- JS `%` on numbers: `a % b = a - b * trunc(a / b)` (for finite `b ≠ 0`). -/
def jsMod (a b : ℚ) : ℚ := a - b * jsTrunc (a / b)

/-- The character `'0'.toNat + d` for a decimal digit `d`. -/
def digitChar (d : ℕ) : Char := Char.ofNat (48 + d)

/-- Digits of `n`, assembled with explicit fuel so that the definition is
structurally recursive (hence kernel-computable); `fuel ≥ 1` suffices
whenever `fuel ≥ n`. -/
def natStrAux : ℕ → ℕ → List Char
  | 0, _ => []
  | fuel + 1, n =>
    if n < 10 then [digitChar n]
    else natStrAux fuel (n / 10) ++ [digitChar (n % 10)]

/-- JS `Number.prototype.toString()` restricted to non-negative integers:
decimal digits, no sign, no separators. -/
def natStr (n : ℕ) : List Char := natStrAux (n + 1) n

/-- JS `String.prototype.padStart(size, '0')`. -/
def jsPadStart (s : List Char) (size : ℕ) : List Char :=
  List.replicate (size - s.length) '0' ++ s

/-- The `pad` helper of `secondsToTimeString`:
`(num) => num.toString().padStart(size, '0')`. -/
def pad (num : ℕ) (size : ℕ) : List Char := jsPadStart (natStr num) size

/-- `secondsToTimeString` from `src/utils/srtParser.ts`.  The argument is
`none` when the JS value is `NaN` (the `isNaN(totalSeconds)` guard). -/
def secondsToTimeString (totalSeconds : Option ℚ) : String :=
  match totalSeconds with
  | none => "00:00:00,000"
  | some q =>
    if q < 0 then "00:00:00,000"
    else
      let hours := (jsFloor (q / 3600)).toNat
      let minutes := (jsFloor (jsMod q 3600 / 60)).toNat
      let seconds := (jsFloor (jsMod q 60)).toNat
      let milliseconds := (jsRound ((q - jsFloor q) * 1000)).toNat
      ⟨pad hours 2 ++ [':'] ++ pad minutes 2 ++ [':'] ++ pad seconds 2 ++
        [','] ++ pad milliseconds 3⟩

/-! ### String primitives -/

/-- JS `\s` / the whitespace class used by `String.prototype.trim`
(ASCII whitespace plus NBSP and the BOM). -/
def jsIsSpace (c : Char) : Bool :=
  c = ' ' || c = '\t' || c = '\n' || c = '\r' || c = '\x0b' || c = '\x0c' ||
    c = Char.ofNat 160 || c = Char.ofNat 0xFEFF

/-- JS `String.prototype.trim()`. -/
def jsTrim (s : List Char) : List Char :=
  ((s.dropWhile jsIsSpace).reverse.dropWhile jsIsSpace).reverse

/-- JS `String.prototype.split(sep)` with a single-character separator. -/
def splitChar (sep : Char) : List Char → List (List Char)
  | [] => [[]]
  | c :: rest =>
    if c = sep then [] :: splitChar sep rest
    else
      match splitChar sep rest with
      | [] => [[c]]
      | p :: ps => (c :: p) :: ps

/-- JS `Array.prototype.join(sep)` with a single-character separator. -/
def joinChar (sep : Char) (ls : List (List Char)) : List Char :=
  List.intercalate [sep] ls

/-- JS `String.prototype.includes(pat)`. -/
def containsSeq (pat : List Char) : List Char → Bool
  | [] => pat.isEmpty
  | c :: rest => pat.isPrefixOf (c :: rest) || containsSeq pat rest

/-- JS `String.prototype.replace(/\r\n/g, '\n')`: global, non-overlapping. -/
def replaceCRLF : List Char → List Char
  | [] => []
  | [c] => [c]
  | c :: d :: rest =>
    if c = '\r' ∧ d = '\n' then '\n' :: replaceCRLF rest
    else c :: replaceCRLF (d :: rest)

/-- JS `String.prototype.replace(t, r)` with single chars: first occurrence. -/
def replaceFirstChar (t r : Char) : List Char → List Char
  | [] => []
  | c :: rest => if c = t then r :: rest else c :: replaceFirstChar t r rest

/-- Index of the last `'\n'` in a list, if any. -/
def lastNewlineIdx : List Char → Option ℕ
  | [] => none
  | c :: rest =>
    match lastNewlineIdx rest with
    | some j => some (j + 1)
    | none => if c = '\n' then some 0 else none

/-- One match of the separator regex `/\n\s*\n/` anchored at the head of the
list: `'\n'`, then a greedy—backtracking—run of `\s`, then `'\n'`.  Returns
the remainder after the match.  Greedy matching of `\s*` followed by a
mandatory `'\n'` selects the *last* `'\n'` inside the whitespace run. -/
def findSep : List Char → Option (List Char)
  | [] => none
  | c :: rest =>
    if c = '\n' then
      match lastNewlineIdx (rest.takeWhile jsIsSpace) with
      | some j => some (rest.drop (j + 1))
      | none => none
    else none

theorem findSep_length {s r : List Char} (h : findSep s = some r) :
    r.length < s.length := by
  match s with
  | [] => simp [findSep] at h
  | c :: rest =>
    simp only [findSep] at h
    split at h
    · match hj : lastNewlineIdx (rest.takeWhile jsIsSpace) with
      | none => rw [hj] at h; simp at h
      | some j =>
        rw [hj] at h
        simp only [Option.some.injEq] at h
        subst h
        simp only [List.length_drop, List.length_cons]
        omega
    · simp at h

/-- JS `String.prototype.split(/\n\s*\n/)`: repeatedly finds the leftmost
separator match and cuts there.  `acc` is the current piece, reversed.
The explicit fuel (decremented once per consumed character) keeps the
recursion structural; any `fuel ≥ s.length` gives the true value, since a
separator match consumes at least two characters. -/
def splitBlocksAux : ℕ → List Char → List Char → List (List Char)
  | _, [], acc => [acc.reverse]
  | 0, s, acc => [acc.reverse ++ s]
  | fuel + 1, c :: rest, acc =>
    match findSep (c :: rest) with
    | some r => acc.reverse :: splitBlocksAux fuel r []
    | none => splitBlocksAux fuel rest (c :: acc)

def splitBlocks (s : List Char) : List (List Char) := splitBlocksAux s.length s []

/-- JS `Array.prototype.findIndex` (as an `Option` instead of `-1`). -/
def jsFindIndex (p : α → Bool) : List α → Option ℕ
  | [] => none
  | a :: as => if p a then some 0 else (jsFindIndex p as).map (· + 1)

/-! ### Number parsing -/

def digitVal (c : Char) : ℕ := c.toNat - 48

def natFromDigits (ds : List Char) : ℕ :=
  ds.foldl (fun a c => 10 * a + digitVal c) 0

/-- JS `parseFloat`: skips leading whitespace, then parses the longest
prefix of the form `[+-]? digits [. digits] [[eE] [+-]? digits]`; `none`
models the `NaN` result when no digits are found. -/
def jsParseFloat (s : List Char) : Option ℚ :=
  let s1 := s.dropWhile jsIsSpace
  let sign : ℚ × List Char :=
    if s1.head? = some '-' then (-1, s1.tail)
    else if s1.head? = some '+' then (1, s1.tail)
    else (1, s1)
  let s2 := sign.2
  let intD := s2.takeWhile Char.isDigit
  let s3 := s2.dropWhile Char.isDigit
  let frac : List Char × List Char :=
    if s3.head? = some '.' then (s3.tail.takeWhile Char.isDigit, s3.tail.dropWhile Char.isDigit)
    else ([], s3)
  let fracD := frac.1
  if intD.isEmpty && fracD.isEmpty then none
  else
    let mant : ℚ := (natFromDigits intD : ℚ) + (natFromDigits fracD : ℚ) / 10 ^ fracD.length
    let expo : ℤ :=
      if frac.2.head? = some 'e' ∨ frac.2.head? = some 'E' then
        let r := frac.2.tail
        if r.head? = some '-' then
          let d := r.tail.takeWhile Char.isDigit
          if d.isEmpty then 0 else -(natFromDigits d : ℤ)
        else if r.head? = some '+' then
          let d := r.tail.takeWhile Char.isDigit
          if d.isEmpty then 0 else (natFromDigits d : ℤ)
        else
          let d := r.takeWhile Char.isDigit
          if d.isEmpty then 0 else (natFromDigits d : ℤ)
      else 0
    some (sign.1 * mant * (10 : ℚ) ^ expo)

/-- `timeStringToSeconds` from `src/utils/srtParser.ts` (`none` = `NaN`).
`time.replace(',', '.')` replaces the first comma; the 3-way match models
the `parts.length !== 3` check and the destructuring `[h, m, s]`. -/
def timeStringToSeconds (time : String) : Option ℚ :=
  match splitChar ':' (replaceFirstChar ',' '.' time.data) with
  | [p1, p2, p3] =>
    match jsParseFloat p1, jsParseFloat p2, jsParseFloat p3 with
    | some h, some m, some s => some (h * 3600 + m * 60 + s)
    | _, _, _ => none
  | _ => none

/-! ### The timestamp-pair regular expression -/

def arrow : List Char := ['-', '-', '>']

/-- One match of `\d{2}:\d{2}:\d{2},\d{3}` anchored at the head; returns
the matched 12 characters and the remainder. -/
def parseTimestamp : List Char → Option (List Char × List Char)
  | d1 :: d2 :: ':' :: d3 :: d4 :: ':' :: d5 :: d6 :: ',' :: d7 :: d8 :: d9 :: rest =>
    if d1.isDigit && d2.isDigit && d3.isDigit && d4.isDigit && d5.isDigit &&
        d6.isDigit && d7.isDigit && d8.isDigit && d9.isDigit then
      some ([d1, d2, ':', d3, d4, ':', d5, d6, ',', d7, d8, d9], rest)
    else none
  | _ => none

/-- One match of the full pattern
`(\d{2}:\d{2}:\d{2},\d{3})\s*-->\s*(\d{2}:\d{2}:\d{2},\d{3})` anchored at
the head (`\s*` is greedy and never needs to backtrack into `-->` since
`'-'` is not whitespace). -/
def matchPairAt (s : List Char) : Option (List Char × List Char) :=
  match parseTimestamp s with
  | some (g1, r1) =>
    let r2 := r1.dropWhile jsIsSpace
    if arrow.isPrefixOf r2 then
      match parseTimestamp ((r2.drop 3).dropWhile jsIsSpace) with
      | some (g2, _) => some (g1, g2)
      | none => none
    else none
  | none => none

/-- JS `String.prototype.match` for the timestamp-pair regex: the leftmost
match's two capture groups. -/
def matchTimePair : List Char → Option (List Char × List Char)
  | [] => none
  | c :: rest => matchPairAt (c :: rest) <|> matchTimePair rest

/-- `SubtitleEntry` from `src/types.ts`; `confidence?: number` is optional. -/
structure SubtitleEntry where
  startTime : ℚ
  endTime : ℚ
  text : String
  confidence : Option ℚ
deriving DecidableEq, Repr

/-! ### `parseSrt` -/

/-- The body of the `blocks.map(block => ...)` callback in `parseSrt`:
parse one blank-line-separated block, `none` for a malformed one. -/
def parseBlock (block : List Char) : Option SubtitleEntry :=
  let lines := splitChar '\n' block
  if lines.length < 2 then none
  else
    match jsFindIndex (fun line => containsSeq arrow line) lines with
    | none => none
    | some timeLineIndex =>
      match matchTimePair (lines.getD timeLineIndex []) with
      | none => none
      | some (g1, g2) =>
        let startTime := timeStringToSeconds ⟨g1⟩
        let endTime := timeStringToSeconds ⟨g2⟩
        let text := jsTrim (joinChar '\n' (lines.drop (timeLineIndex + 1)))
        match startTime, endTime with
        | some st, some et => some ⟨st, et, ⟨text⟩, none⟩
        | _, _ => none

/-- `parseSrt` from `src/utils/srtParser.ts`.  `if (!srt) return []` is the
empty-string falsiness test; then
`srt.trim().replace(/\r\n/g, '\n').split(/\n\s*\n/)`, one parse attempt per
block, and `null` results filtered out. -/
def parseSrt (srt : String) : List SubtitleEntry :=
  if srt.data = [] then []
  else
    let blocks := splitBlocks (replaceCRLF (jsTrim srt.data))
    (blocks.map parseBlock).reduceOption

/-! ### `toSrt` -/

/-- `/[.?!]$/.test(sub1.text.trim())`. -/
def endsWithPunctuation (text : String) : Bool :=
  match (jsTrim text.data).getLast? with
  | some c => c = '.' || c = '?' || c = '!'
  | none => false

/-- The `${startTime} --> ${endTime}` part of a rendered block. -/
def srtTimeLine (a b : ℚ) : List Char :=
  (secondsToTimeString (some a)).data ++ (' ' :: arrow ++ [' ']) ++
    (secondsToTimeString (some b)).data

/-- The `while (i < localEntries.length)` loop of `toSrt`: renders the
blocks, consuming two entries for a pair
(`sub2 && sub2.startTime - sub1.endTime < 0.5 && !endsWithPunctuation`)
and one otherwise. -/
def toSrtBlocks : List SubtitleEntry → ℕ → List (List Char)
  | [], _ => []
  | [sub1], srtIndex =>
    [natStr srtIndex ++ '\n' :: srtTimeLine sub1.startTime sub1.endTime ++
      '\n' :: sub1.text.data]
  | sub1 :: sub2 :: rest2, srtIndex =>
    if sub2.startTime - sub1.endTime < 1/2 && !endsWithPunctuation sub1.text then
      (natStr srtIndex ++ '\n' :: srtTimeLine sub1.startTime sub2.endTime ++
          '\n' :: (sub1.text.data ++ '\n' :: sub2.text.data)) ::
        toSrtBlocks rest2 (srtIndex + 1)
    else
      (natStr srtIndex ++ '\n' :: srtTimeLine sub1.startTime sub1.endTime ++
          '\n' :: sub1.text.data) :: toSrtBlocks (sub2 :: rest2) (srtIndex + 1)

/-- The same loop, recorded as the groups of entries each block covers
(the Grouping Engine view of the export). -/
def toSrtGroups : List SubtitleEntry → List (List SubtitleEntry)
  | [] => []
  | [sub1] => [[sub1]]
  | sub1 :: sub2 :: rest2 =>
    if sub2.startTime - sub1.endTime < 1/2 && !endsWithPunctuation sub1.text then
      [sub1, sub2] :: toSrtGroups rest2
    else [sub1] :: toSrtGroups (sub2 :: rest2)

/-- `JSON.parse(JSON.stringify(entries))`: a structural deep copy (exact on
the rational times, the text, and the optional confidence). -/
def deepCopy (entries : List SubtitleEntry) : List SubtitleEntry :=
  entries.map fun e => ⟨e.startTime, e.endTime, e.text, e.confidence⟩

/-- JS truthiness of the optional `duration` argument (`undefined` and `0`
are falsy). -/
def jsTruthy : Option ℚ → Bool
  | none => false
  | some q => decide (q ≠ 0)

/-- `toSrt` from `src/utils/srtParser.ts`: early return on an empty array,
deep copy, optional extension of the last entry's end to `duration`, then
the block loop, blocks joined by `'\n\n'`. -/
def toSrt (entries : List SubtitleEntry) (duration : Option ℚ) : String :=
  if entries.length = 0 then ""
  else
    let localEntries := deepCopy entries
    let localEntries :=
      if jsTruthy duration && decide (0 < localEntries.length) then
        match duration, localEntries.getLast? with
        | some d, some lastEntry =>
          if lastEntry.endTime < d then
            localEntries.set (localEntries.length - 1)
              ⟨lastEntry.startTime, d, lastEntry.text, lastEntry.confidence⟩
          else localEntries
        | _, _ => localEntries
      else localEntries
    ⟨List.intercalate ['\n', '\n'] (toSrtBlocks localEntries 1)⟩

/-! ### `toSrt` against an explicit heap (for the frame effect)

`toSrt` receives a *reference* to the component's entry array and deep
copies it before mutating.  To state that the caller's array is left
untouched we model a heap of arrays (`List (List SubtitleEntry)`,
pointers are indices), run `toSrt` on a pointer, and return the heap. -/

def heapRead (h : List (List SubtitleEntry)) (p : ℕ) : List SubtitleEntry :=
  h.getD p []

/-- `toSrt` with its allocation and mutation made explicit: the input array
lives at pointer `p`; `JSON.parse(JSON.stringify(entries))` allocates a
fresh array `q`; `lastEntry.endTime = duration` writes through `q`. -/
def toSrtOnHeap (h : List (List SubtitleEntry)) (p : ℕ) (duration : Option ℚ) :
    String × List (List SubtitleEntry) :=
  let entries := heapRead h p
  if entries.length = 0 then ("", h)
  else
    let h1 := h ++ [deepCopy entries]
    let q := h.length
    let h2 :=
      if jsTruthy duration && decide (0 < (heapRead h1 q).length) then
        match duration, (heapRead h1 q).getLast? with
        | some d, some lastEntry =>
          if lastEntry.endTime < d then
            h1.set q ((heapRead h1 q).set ((heapRead h1 q).length - 1)
              ⟨lastEntry.startTime, d, lastEntry.text, lastEntry.confidence⟩)
          else h1
        | _, _ => h1
      else h1
    (⟨List.intercalate ['\n', '\n'] (toSrtBlocks (heapRead h2 q) 1)⟩, h2)

/-! ### `extractPeaks` (WaveformEditor in `src/components/SubtitlePreview.tsx`)

The decoded channel is a list of sample values.  A JS typed-array read
`data[j]` with `j` out of bounds yields `undefined`, and both comparisons
`undefined > max` and `undefined < min` are false, so the fold skips such
reads; this is modelled by `data[j]?`. -/

/-- `step = Math.ceil(data.length / width)` (for `width = 0` the loop body
never runs, so the value is irrelevant; we use 0). -/
def peakStep (len width : ℕ) : ℕ :=
  if width = 0 then 0 else (len + width - 1) / width

/-- The loop body `if (val > max) max = val; if (val < min) min = val`
(state is the `(min, max)` pair). -/
def peakUpd (mm : ℚ × ℚ) (val : ℚ) : ℚ × ℚ :=
  (if val < mm.1 then val else mm.1, if val > mm.2 then val else mm.2)

/-- The inner `for (let j = start; j < end; j++)` scan of one bucket,
starting from `min = 1.0`, `max = -1.0`; an out-of-bounds read is
`undefined` and updates nothing. -/
def bucketScan (data : List ℚ) (start step : ℕ) : ℚ × ℚ :=
  (List.range' start step).foldl
    (fun mm j =>
      match data[j]? with
      | some val => peakUpd mm val
      | none => mm)
    (1, -1)

/-- `extractPeaks` from WaveformEditor: one `(min, max)` pair per pixel. -/
def extractPeaks (data : List ℚ) (width : ℕ) : List (ℚ × ℚ) :=
  let step := peakStep data.length width
  (List.range width).map fun i => bucketScan data (i * step) step

/-- The indices `data[j]` is read at by `extractPeaks`'s loops: the same
`List.range'` bounds as `bucketScan`, over the same `List.range` of
buckets. -/
def peaksAccessed (len width : ℕ) : List ℕ :=
  let step := peakStep len width
  (List.range width).flatMap fun i => List.range' (i * step) step

/-! ### Pointer interaction (WaveformEditor) -/

/-- `HANDLE_WIDTH` in `src/components/SubtitlePreview.tsx`. -/
def HANDLE_WIDTH : ℚ := 4

/-- `pxToTime = (px) => (px / canvas.width) * duration`. -/
def pxToTime (width duration px : ℚ) : ℚ := px / width * duration

/-- `timeToPx = (time) => (time / duration) * canvas.width`. -/
def timeToPx (width duration time : ℚ) : ℚ := time / duration * width

inductive DragMode where
  | startEdge
  | endEdge
  | move
deriving DecidableEq, Repr

/-- The `dragInfo` state set on mouse-down. -/
structure DragInfo where
  type : DragMode
  index : ℕ
  startX : ℚ
  originalStart : ℚ
  originalEnd : ℚ
deriving DecidableEq, Repr

/-- What a mouse-down at pixel `x` resolves to in `handleMouseDown`. -/
inductive MouseDownAction where
  | split (index : ℕ) (time : ℚ)
  | drag (info : DragInfo)
  | seek (time : ℚ)
deriving DecidableEq, Repr

/-- The `for (let i = subtitles.length - 1; i >= 0; i--)` split scan:
first index from the end whose span strictly contains `time`. -/
def splitScan (subs : List (ℕ × SubtitleEntry)) (time : ℚ) : Option ℕ :=
  match subs with
  | [] => none
  | (i, sub) :: rest =>
    if time > sub.startTime && time < sub.endTime then some i
    else splitScan rest time

/-- The drag/seek scan, also from the end: per entry, start handle, then
end handle, then strict interior. -/
def dragScan (width duration x : ℚ) (subs : List (ℕ × SubtitleEntry)) :
    MouseDownAction :=
  match subs with
  | [] => .seek (pxToTime width duration x)
  | (i, sub) :: rest =>
    let startX := timeToPx width duration sub.startTime
    let endX := timeToPx width duration sub.endTime
    if |x - startX| < HANDLE_WIDTH then
      .drag ⟨.startEdge, i, x, sub.startTime, sub.endTime⟩
    else if |x - endX| < HANDLE_WIDTH then
      .drag ⟨.endEdge, i, x, sub.startTime, sub.endTime⟩
    else if x > startX && x < endX then
      .drag ⟨.move, i, x, sub.startTime, sub.endTime⟩
    else dragScan width duration x rest

/-- `handleMouseDown`: Alt+click attempts a split first (scanning entries
from the end); if no entry strictly contains the time, execution falls
through to the drag scan, and finally to a seek. -/
def handleMouseDown (subtitles : List SubtitleEntry) (duration width x : ℚ)
    (altKey : Bool) : MouseDownAction :=
  let time := pxToTime width duration x
  let revSubs := subtitles.enum.reverse
  if altKey then
    match splitScan revSubs time with
    | some i => .split i time
    | none => dragScan width duration x revSubs
  else dragScan width duration x revSubs

/-- `handleMouseMove`: the per-move update of the dragged entry, before it
is handed to `onUpdateSubtitle`. -/
def handleMouseMove (dragInfo : DragInfo) (sub : SubtitleEntry)
    (duration width x : ℚ) : SubtitleEntry :=
  match dragInfo.type with
  | .move =>
    let deltaX := x - dragInfo.startX
    let deltaTime := pxToTime width duration deltaX
    let newStartTime := max 0 (dragInfo.originalStart + deltaTime)
    let newEndTime :=
      min duration (newStartTime + (dragInfo.originalEnd - dragInfo.originalStart))
    ⟨newStartTime, newEndTime, sub.text, sub.confidence⟩
  | .startEdge =>
    let newTime := max 0 (min duration (pxToTime width duration x))
    ⟨min newTime sub.endTime, sub.endTime, sub.text, sub.confidence⟩
  | .endEdge =>
    let newTime := max 0 (min duration (pxToTime width duration x))
    ⟨sub.startTime, max newTime sub.startTime, sub.text, sub.confidence⟩

/-- The destructuring swap in `handleSubtitleUpdate`:
`if (startTime > endTime) [startTime, endTime] = [endTime, startTime]`. -/
def swapFix (e : SubtitleEntry) : SubtitleEntry :=
  if e.startTime > e.endTime then ⟨e.endTime, e.startTime, e.text, e.confidence⟩
  else e

/-- `handleSubtitleUpdate` from SubtitlePreview: swaps the two times if
`startTime > endTime`, then stores the entry at `index`. -/
def handleSubtitleUpdate (subtitles : List SubtitleEntry) (index : ℕ)
    (updatedEntry : SubtitleEntry) : List SubtitleEntry :=
  subtitles.set index (swapFix updatedEntry)

/-- The spec's bucket contract, for comparison: "for each bucket compute
the minimum and maximum sample amplitude", over the bucket's *in-bounds*
samples only. -/
def specBucketMinMax (bucket : List ℚ) : ℚ × ℚ := bucket.foldl peakUpd (1, -1)


/-! ### Round-trip support -/

/-- Rounding a time to milliseconds the way the serialized form does:
`floor` to whole seconds plus `Math.round` of the remainder equals
`⌊t·1000 + 1/2⌋ / 1000` whenever the remainder does not carry. -/
def msRoundQ (t : ℚ) : ℚ := (jsRound (t * 1000) : ℚ) / 1000

/-- A time the serialized `HH:MM:SS,mmm` form represents faithfully:
non-negative, below 100 hours, and with a millisecond remainder that
rounds below 1000. -/
def goodTime (t : ℚ) : Prop :=
  0 ≤ t ∧ t < 360000 ∧ (t - ⌊t⌋) * 1000 + 1/2 < 1000

/-- A text that survives the SRT round trip unchanged: non-empty, single
line, no carriage return, and invariant under `trim`. -/
def goodText (t : String) : Prop :=
  t.data ≠ [] ∧ '\n' ∉ t.data ∧ '\r' ∉ t.data ∧ jsTrim t.data = t.data

instance (t : ℚ) : Decidable (goodTime t) := by
  unfold goodTime
  infer_instance

instance (t : String) : Decidable (goodText t) := by
  unfold goodText
  infer_instance

/-- Every `'\n'` is immediately followed by a non-whitespace character (so
no suffix of the list can start a `/\n\s*\n/` separator match). -/
def nlOK (b : List Char) : Prop :=
  ∀ u v, b = u ++ '\n' :: v → ∃ c w, v = c :: w ∧ jsIsSpace c = false

/-- A rendered SRT block as the block splitter sees it: non-empty, with
non-whitespace first and last characters, and no blank line inside. -/
def goodBlockP (b : List Char) : Prop :=
  b ≠ [] ∧ (∀ c, b.head? = some c → jsIsSpace c = false) ∧
    (∀ c, b.getLast? = some c → jsIsSpace c = false) ∧ nlOK b

/-- `'\n\n' ++ block` for each further block — the tail of
`List.intercalate ['\n', '\n']`. -/
def sepJoin : List (List Char) → List Char
  | [] => []
  | x :: xs => '\n' :: '\n' :: (x ++ sepJoin xs)

/-- The entry the claim expects `parseSrt` to recover from one export
group: the group's first start and last end rounded to milliseconds, and
the members' texts joined by newlines. -/
def roundTripEntry : List SubtitleEntry → SubtitleEntry
  | [] => ⟨0, 0, "", none⟩
  | a :: rest =>
    ⟨msRoundQ a.startTime, msRoundQ (((a :: rest).getLast (by simp)).endTime),
      ⟨joinChar '\n' ((a :: rest).map (fun e => e.text.data))⟩, none⟩

/-! ## Claims -/

/-- C10: for every input to `secondsToTimeString` that is `NaN` (modelled
as `none`) or negative, the function returns the fixed string
`"00:00:00,000"` rather than failing or producing a malformed timestamp. -/
theorem c10_nan_negative_fallback (q : ℚ) (h : q < 0) :
    secondsToTimeString none = "00:00:00,000" ∧
      secondsToTimeString (some q) = "00:00:00,000" := by
  refine ⟨rfl, ?_⟩
  simp [secondsToTimeString, h]

theorem c10_witness :
    (-1 : ℚ) < 0 ∧
      (secondsToTimeString none = "00:00:00,000" ∧
        secondsToTimeString (some (-1 : ℚ)) = "00:00:00,000") :=
  ⟨by norm_num, c10_nan_negative_fallback (-1) (by norm_num)⟩

/-- C6: in move mode, the updated entry has
`start = max(0, originalStart + Δtime)` and
`end = min(duration, newStart + (originalEnd - originalStart))`, and
whenever the clamp to `duration` does not bind, the span length
`originalEnd - originalStart` is preserved exactly. -/
theorem c6_move_update (info : DragInfo) (sub : SubtitleEntry)
    (duration width x : ℚ) (hmode : info.type = .move) :
    (handleMouseMove info sub duration width x).startTime
        = max 0 (info.originalStart + pxToTime width duration (x - info.startX)) ∧
    (handleMouseMove info sub duration width x).endTime
        = min duration
            (max 0 (info.originalStart + pxToTime width duration (x - info.startX))
              + (info.originalEnd - info.originalStart)) ∧
    (max 0 (info.originalStart + pxToTime width duration (x - info.startX))
          + (info.originalEnd - info.originalStart) ≤ duration →
      (handleMouseMove info sub duration width x).endTime
          - (handleMouseMove info sub duration width x).startTime
        = info.originalEnd - info.originalStart) := by
  unfold handleMouseMove
  rw [hmode]
  refine ⟨rfl, rfl, fun h => ?_⟩
  simp only
  rw [min_eq_right h]
  ring

theorem c6_witness :
    (DragInfo.mk .move 0 0 0 1).type = .move ∧
      ((handleMouseMove ⟨.move, 0, 0, 0, 1⟩ ⟨0, 1, "t", none⟩ 10 100 50).startTime
          = max 0 (0 + pxToTime 100 10 (50 - 0)) ∧
        (handleMouseMove ⟨.move, 0, 0, 0, 1⟩ ⟨0, 1, "t", none⟩ 10 100 50).endTime
          = min 10 (max 0 (0 + pxToTime 100 10 (50 - 0)) + (1 - 0)) ∧
        (max 0 (0 + pxToTime 100 10 (50 - 0)) + (1 - 0) ≤ 10 →
          (handleMouseMove ⟨.move, 0, 0, 0, 1⟩ ⟨0, 1, "t", none⟩ 10 100 50).endTime
              - (handleMouseMove ⟨.move, 0, 0, 0, 1⟩ ⟨0, 1, "t", none⟩ 10 100 50).startTime
            = 1 - 0)) :=
  ⟨rfl, c6_move_update ⟨.move, 0, 0, 0, 1⟩ ⟨0, 1, "t", none⟩ 10 100 50 rfl⟩

/-- C5 counterexample: a move drag of the entry `(0, 1)` by `+20 s` with
`duration = 10` yields, after the swap in `handleSubtitleUpdate`, the
stored entry `(10, 20)` whose end time `20` exceeds `duration = 10` — so
the claim that both times always lie in `[0, duration]` is false. -/
theorem c5_counterexample :
    handleSubtitleUpdate [⟨0, 1, "t", none⟩] 0
        (handleMouseMove ⟨.move, 0, 0, 0, 1⟩ ⟨0, 1, "t", none⟩ 10 100 200)
      = [⟨10, 20, "t", none⟩] ∧ ¬((20 : ℚ) ≤ 10) := by with_unfolding_all exact of_decide_eq_true rfl

/-- C5 (amended): after any drag update followed by the swap in
`handleSubtitleUpdate`, the entry satisfies `start ≤ end`, both times are
non-negative, and `start ≤ duration`; the end time stays `≤ duration`
except when a move drag overshoots the right edge — there the swapped
entry's end equals `originalStart + Δtime > duration` (the violation
exhibited by `c5_counterexample`). -/
theorem c5_clamp_swap (info : DragInfo) (sub : SubtitleEntry)
    (duration width x : ℚ) (hd : 0 ≤ duration)
    (hs0 : 0 ≤ sub.startTime) (hse : sub.startTime ≤ sub.endTime)
    (hed : sub.endTime ≤ duration)
    (ho0 : 0 ≤ info.originalStart) (hoo : info.originalStart ≤ info.originalEnd) :
    (swapFix (handleMouseMove info sub duration width x)).startTime
        ≤ (swapFix (handleMouseMove info sub duration width x)).endTime ∧
      0 ≤ (swapFix (handleMouseMove info sub duration width x)).startTime ∧
      (swapFix (handleMouseMove info sub duration width x)).startTime ≤ duration ∧
      0 ≤ (swapFix (handleMouseMove info sub duration width x)).endTime ∧
      ((swapFix (handleMouseMove info sub duration width x)).endTime ≤ duration ∨
        (info.type = .move ∧
          duration < (swapFix (handleMouseMove info sub duration width x)).endTime ∧
          (swapFix (handleMouseMove info sub duration width x)).endTime
            = info.originalStart + pxToTime width duration (x - info.startX))) := by
  obtain ⟨ty, idx, sx, os, oe⟩ := info
  have hnt0 : (0 : ℚ) ≤ max 0 (min duration (pxToTime width duration x)) :=
    le_max_left _ _
  have hntd : max 0 (min duration (pxToTime width duration x)) ≤ duration :=
    max_le hd (min_le_left _ _)
  cases ty with
  | startEdge =>
    simp only [handleMouseMove, swapFix]
    rw [if_neg (not_lt.mpr (min_le_right _ _))]
    refine ⟨min_le_right _ _, le_min hnt0 (hs0.trans hse), ?_, hs0.trans hse,
      Or.inl hed⟩
    exact le_trans (min_le_right _ _) hed
  | endEdge =>
    simp only [handleMouseMove, swapFix]
    rw [if_neg (not_lt.mpr (le_max_right _ _))]
    exact ⟨le_max_right _ _, hs0, hse.trans hed, hs0.trans (le_max_right _ _),
      Or.inl (max_le hntd (hse.trans hed))⟩
  | move =>
    simp only [handleMouseMove, swapFix]
    have hspan : (0 : ℚ) ≤ oe - os := sub_nonneg.mpr hoo
    have hns0 : (0 : ℚ) ≤ max 0 (os + pxToTime width duration (x - sx)) :=
      le_max_left _ _
    split_ifs with hsw
    · -- swap branch: `newStartTime > newEndTime`, so `duration < newStartTime`
      simp only at hsw ⊢
      have hne_le : min duration (max 0 (os + pxToTime width duration (x - sx))
          + (oe - os)) ≤ duration := min_le_left _ _
      have hdlt : duration < max 0 (os + pxToTime width duration (x - sx)) := by
        by_contra hcon
        push_neg at hcon
        have : max 0 (os + pxToTime width duration (x - sx))
            ≤ min duration (max 0 (os + pxToTime width duration (x - sx)) + (oe - os)) :=
          le_min hcon (by linarith)
        exact absurd hsw (not_lt.mpr this)
      have hmaxeq : max 0 (os + pxToTime width duration (x - sx))
          = os + pxToTime width duration (x - sx) := by
        rcases le_or_lt (os + pxToTime width duration (x - sx)) 0 with hle | hlt
        · exact absurd (max_eq_left hle ▸ hdlt) (not_lt.mpr hd)
        · exact max_eq_right hlt.le
      refine ⟨hsw.le, le_min hd (by linarith), min_le_left _ _, hns0, Or.inr ?_⟩
      exact ⟨trivial, hdlt, hmaxeq⟩
    · -- no swap: the clamped pair is already ordered
      simp only at hsw ⊢
      push_neg at hsw
      refine ⟨hsw, hns0, ?_, hns0.trans hsw, Or.inl (min_le_left _ _)⟩
      exact hsw.trans (min_le_left _ _)

theorem c5_witness :
    (0 : ℚ) ≤ 10 ∧ (0 : ℚ) ≤ (SubtitleEntry.mk 0 1 "t" none).startTime ∧
      (SubtitleEntry.mk 0 1 "t" none).startTime ≤ (SubtitleEntry.mk 0 1 "t" none).endTime ∧
      (SubtitleEntry.mk 0 1 "t" none).endTime ≤ 10 ∧
      (0 : ℚ) ≤ (DragInfo.mk .move 0 0 0 1).originalStart ∧
      (DragInfo.mk .move 0 0 0 1).originalStart ≤ (DragInfo.mk .move 0 0 0 1).originalEnd ∧
      ((swapFix (handleMouseMove ⟨.move, 0, 0, 0, 1⟩ ⟨0, 1, "t", none⟩ 10 100 200)).startTime
          ≤ (swapFix (handleMouseMove ⟨.move, 0, 0, 0, 1⟩ ⟨0, 1, "t", none⟩ 10 100 200)).endTime ∧
        0 ≤ (swapFix (handleMouseMove ⟨.move, 0, 0, 0, 1⟩ ⟨0, 1, "t", none⟩ 10 100 200)).startTime ∧
        (swapFix (handleMouseMove ⟨.move, 0, 0, 0, 1⟩ ⟨0, 1, "t", none⟩ 10 100 200)).startTime ≤ 10 ∧
        0 ≤ (swapFix (handleMouseMove ⟨.move, 0, 0, 0, 1⟩ ⟨0, 1, "t", none⟩ 10 100 200)).endTime ∧
        ((swapFix (handleMouseMove ⟨.move, 0, 0, 0, 1⟩ ⟨0, 1, "t", none⟩ 10 100 200)).endTime ≤ 10 ∨
          ((DragInfo.mk .move 0 0 0 1).type = .move ∧
            10 < (swapFix (handleMouseMove ⟨.move, 0, 0, 0, 1⟩ ⟨0, 1, "t", none⟩ 10 100 200)).endTime ∧
            (swapFix (handleMouseMove ⟨.move, 0, 0, 0, 1⟩ ⟨0, 1, "t", none⟩ 10 100 200)).endTime
              = (DragInfo.mk .move 0 0 0 1).originalStart
                + pxToTime 100 10 (200 - (DragInfo.mk .move 0 0 0 1).startX)))) :=
  ⟨by norm_num, by with_unfolding_all exact of_decide_eq_true rfl,
    by with_unfolding_all exact of_decide_eq_true rfl,
    by with_unfolding_all exact of_decide_eq_true rfl,
    by with_unfolding_all exact of_decide_eq_true rfl,
    by with_unfolding_all exact of_decide_eq_true rfl,
    c5_clamp_swap ⟨.move, 0, 0, 0, 1⟩ ⟨0, 1, "t", none⟩ 10 100 200
      (by norm_num) (by with_unfolding_all exact of_decide_eq_true rfl)
      (by with_unfolding_all exact of_decide_eq_true rfl)
      (by with_unfolding_all exact of_decide_eq_true rfl)
      (by with_unfolding_all exact of_decide_eq_true rfl)
      (by with_unfolding_all exact of_decide_eq_true rfl)⟩

/-- C4 counterexample: for the 2-sample buffer and requested width `W = 4`
the bucket loops read index `3`, which is outside the buffer's bounds
(the result still has exactly `W` entries). -/
theorem c4_counterexample :
    (extractPeaks [(1 : ℚ)/2, -(1 : ℚ)/3] 4).length = 4 ∧
      3 ∈ peaksAccessed ([(1 : ℚ)/2, -(1 : ℚ)/3] : List ℚ).length 4 ∧
      ¬(3 < ([(1 : ℚ)/2, -(1 : ℚ)/3] : List ℚ).length) := by with_unfolding_all exact of_decide_eq_true rfl

theorem bucketScan_eq_spec (data : List ℚ) :
    ∀ (step start : ℕ) (init : ℚ × ℚ),
      (List.range' start step).foldl
          (fun mm j =>
            match data[j]? with
            | some val => peakUpd mm val
            | none => mm)
          init
        = ((data.drop start).take step).foldl peakUpd init := by
  intro step
  induction step with
  | zero => intro start init; simp
  | succ n ih =>
    intro start init
    rw [List.range'_succ, List.foldl_cons]
    cases h : data[start]? with
    | none =>
      have hlen : data.length ≤ start := by
        simpa using List.getElem?_eq_none_iff.mp h
      have h1 : data.drop start = [] := List.drop_eq_nil_of_le hlen
      have h2 : data.drop (start + 1) = [] := List.drop_eq_nil_of_le (by omega)
      rw [ih (start + 1) init, h1, h2]
      simp
    | some v =>
      have hlt : start < data.length := by
        by_contra hc
        rw [List.getElem?_eq_none_iff.mpr (by omega)] at h
        exact Option.noConfusion h
      have hdrop : data.drop start = data[start] :: data.drop (start + 1) :=
        List.drop_eq_getElem_cons hlt
      have hv : data[start] = v := by
        have := List.getElem?_eq_getElem hlt
        rw [this] at h
        exact Option.some.inj h
      rw [ih (start + 1) (peakUpd init v), hdrop, hv, List.take_succ_cons,
        List.foldl_cons]

/-- C4 (amended): for every buffer and every requested width `W ≥ 1`,
`extractPeaks` returns exactly `W` pairs — also when `W` exceeds the
sample count — and each pair is the min/max fold over only the *in-bounds*
part of its bucket (out-of-bounds reads are `undefined` and update
nothing, so a fully out-of-bounds bucket yields `(1, -1)`).  The original
claim's "never reads outside the buffer's bounds" is refuted by
`c4_counterexample`. -/
theorem c4_peaks (data : List ℚ) (width : ℕ) (_h : 1 ≤ width) :
    (extractPeaks data width).length = width ∧
      extractPeaks data width
        = (List.range width).map (fun i =>
            specBucketMinMax
              ((data.drop (i * peakStep data.length width)).take
                (peakStep data.length width))) := by
  constructor
  · simp [extractPeaks]
  · unfold extractPeaks
    refine List.map_congr_left fun i _ => ?_
    exact bucketScan_eq_spec data _ _ _

theorem c4_witness :
    1 ≤ 4 ∧
      ((extractPeaks [(1 : ℚ)/2, -(1 : ℚ)/3] 4).length = 4 ∧
        extractPeaks [(1 : ℚ)/2, -(1 : ℚ)/3] 4
          = (List.range 4).map (fun i =>
              specBucketMinMax
                ((([(1 : ℚ)/2, -(1 : ℚ)/3] : List ℚ).drop
                    (i * peakStep ([(1 : ℚ)/2, -(1 : ℚ)/3] : List ℚ).length 4)).take
                  (peakStep ([(1 : ℚ)/2, -(1 : ℚ)/3] : List ℚ).length 4)))) :=
  ⟨by norm_num, c4_peaks [(1 : ℚ)/2, -(1 : ℚ)/3] 4 (by norm_num)⟩

/-- C3 counterexample: `secondsToTimeString(0.9996)` rounds the
millisecond remainder to `1000`, producing `"00:00:00,1000"` — a 4-digit
millisecond field (a well-formed `HH:MM:SS,mmm` string has 12
characters). -/
theorem c3_counterexample :
    secondsToTimeString (some (0.9996 : ℚ)) = "00:00:00,1000" ∧
      (secondsToTimeString (some (0.9996 : ℚ))).data.length ≠ 12 := by with_unfolding_all exact of_decide_eq_true rfl

set_option maxRecDepth 4000 in
theorem pad2_spec :
    ∀ n < 100, (pad n 2).length = 2 ∧ (∀ c ∈ pad n 2, c.isDigit = true) ∧
      natFromDigits (pad n 2) = n := by decide

set_option maxHeartbeats 1000000 in
set_option maxRecDepth 10000 in
theorem pad3_spec :
    ∀ n < 1000, (pad n 3).length = 3 ∧ (∀ c ∈ pad n 3, c.isDigit = true) ∧
      natFromDigits (pad n 3) = n := by decide

theorem jsTrunc_of_nonneg {q : ℚ} (h : 0 ≤ q) : jsTrunc q = ⌊q⌋ :=
  if_neg (not_lt.mpr h)

theorem jsMod_floor {q m : ℚ} (hq : 0 ≤ q) (hm : 0 < m) :
    jsMod q m = q - m * ⌊q / m⌋ := by
  rw [jsMod, jsTrunc_of_nonneg (div_nonneg hq hm.le)]

theorem jsMod_nonneg {q m : ℚ} (hq : 0 ≤ q) (hm : 0 < m) : 0 ≤ jsMod q m := by
  rw [jsMod_floor hq hm]
  have h1 : (⌊q / m⌋ : ℚ) ≤ q / m := Int.floor_le _
  have := mul_le_mul_of_nonneg_left h1 hm.le
  rw [mul_div_cancel₀ q hm.ne'] at this
  linarith

theorem jsMod_lt {q m : ℚ} (hq : 0 ≤ q) (hm : 0 < m) : jsMod q m < m := by
  rw [jsMod_floor hq hm]
  have h1 : q / m < ⌊q / m⌋ + 1 := Int.lt_floor_add_one _
  have := mul_lt_mul_of_pos_left h1 hm
  rw [mul_div_cancel₀ q hm.ne'] at this
  linarith

theorem frac_nonneg (q : ℚ) : 0 ≤ q - ⌊q⌋ := by
  have := Int.floor_le q
  linarith

/-- C3 (amended): for `0 ≤ q < 100 h` whose millisecond remainder rounds
below `1000`, the output is `HH:MM:SS,mmm` with exactly 2/2/2/3 digit
fields; the H/M/S fields decompose the floored whole-second value and the
millisecond field is the rounded fractional remainder, so
`90.0006 → "00:01:30,001"`.  Unbounded hours or a remainder rounding to
`1000` break the format (`c3_counterexample`). -/
theorem c3_time_format (q : ℚ) (h0 : 0 ≤ q) (hh : q < 360000)
    (hms : (q - ⌊q⌋) * 1000 + 1/2 < 1000) :
    ∃ hrs mins secs ms : ℕ,
      hrs < 100 ∧ mins < 60 ∧ secs < 60 ∧ ms < 1000 ∧
      (hrs : ℤ) = jsFloor (q / 3600) ∧
      (mins : ℤ) = jsFloor (jsMod q 3600 / 60) ∧
      (secs : ℤ) = jsFloor (jsMod q 60) ∧
      (ms : ℤ) = jsRound ((q - jsFloor q) * 1000) ∧
      (3600 * hrs + 60 * mins + secs : ℤ) = ⌊q⌋ ∧
      (secondsToTimeString (some q)).data
        = pad hrs 2 ++ [':'] ++ pad mins 2 ++ [':'] ++ pad secs 2 ++ [','] ++ pad ms 3 ∧
      (pad hrs 2).length = 2 ∧ (pad mins 2).length = 2 ∧
      (pad secs 2).length = 2 ∧ (pad ms 3).length = 3 ∧
      (∀ c ∈ pad hrs 2, c.isDigit = true) ∧ (∀ c ∈ pad mins 2, c.isDigit = true) ∧
      (∀ c ∈ pad secs 2, c.isDigit = true) ∧ (∀ c ∈ pad ms 3, c.isDigit = true) ∧
      secondsToTimeString (some (90.0006 : ℚ)) = "00:01:30,001" := by
  have hA0 : (0 : ℤ) ≤ ⌊q / 3600⌋ := Int.floor_nonneg.mpr (by positivity)
  have hAcast := Int.toNat_of_nonneg hA0
  have hAlt : ⌊q / 3600⌋ < 100 := by
    apply Int.floor_lt.mpr
    rw [div_lt_iff (by norm_num : (0:ℚ) < 3600)]
    push_cast
    linarith
  have hM0 : 0 ≤ jsMod q 3600 := jsMod_nonneg h0 (by norm_num)
  have hMlt : jsMod q 3600 < 3600 := jsMod_lt h0 (by norm_num)
  have hB0 : (0 : ℤ) ≤ ⌊jsMod q 3600 / 60⌋ := Int.floor_nonneg.mpr (by positivity)
  have hBcast := Int.toNat_of_nonneg hB0
  have hBlt : ⌊jsMod q 3600 / 60⌋ < 60 := by
    apply Int.floor_lt.mpr
    rw [div_lt_iff (by norm_num : (0:ℚ) < 60)]
    push_cast
    linarith
  have hS0' : 0 ≤ jsMod q 60 := jsMod_nonneg h0 (by norm_num)
  have hSlt' : jsMod q 60 < 60 := jsMod_lt h0 (by norm_num)
  have hS0 : (0 : ℤ) ≤ ⌊jsMod q 60⌋ := Int.floor_nonneg.mpr hS0'
  have hScast := Int.toNat_of_nonneg hS0
  have hSlt : ⌊jsMod q 60⌋ < 60 := by
    apply Int.floor_lt.mpr
    push_cast
    linarith
  have hfrac : 0 ≤ q - ⌊q⌋ := frac_nonneg q
  have hR0 : (0 : ℤ) ≤ ⌊(q - ⌊q⌋) * 1000 + 1/2⌋ := Int.floor_nonneg.mpr (by positivity)
  have hRcast := Int.toNat_of_nonneg hR0
  have hRlt : ⌊(q - ⌊q⌋) * 1000 + 1/2⌋ < 1000 := by
    apply Int.floor_lt.mpr
    push_cast
    linarith
  have hmins_eq : ⌊jsMod q 3600 / 60⌋ = ⌊q / 60⌋ - 60 * ⌊q / 3600⌋ := by
    rw [jsMod_floor h0 (by norm_num : (0:ℚ) < 3600)]
    have heq : (q - 3600 * ⌊q / 3600⌋) / 60 = q / 60 - ((60 * ⌊q / 3600⌋ : ℤ) : ℚ) := by
      push_cast
      ring
    rw [heq, Int.floor_sub_int]
  have hsecs_eq : ⌊jsMod q 60⌋ = ⌊q⌋ - 60 * ⌊q / 60⌋ := by
    rw [jsMod_floor h0 (by norm_num : (0:ℚ) < 60)]
    have heq : q - 60 * ⌊q / 60⌋ = q - ((60 * ⌊q / 60⌋ : ℤ) : ℚ) := by
      push_cast
      ring
    rw [heq, Int.floor_sub_int]
  refine ⟨(⌊q / 3600⌋).toNat, (⌊jsMod q 3600 / 60⌋).toNat, (⌊jsMod q 60⌋).toNat,
    (⌊(q - ⌊q⌋) * 1000 + 1/2⌋).toNat, by omega, by omega, by omega, by omega,
    hAcast, hBcast, hScast, hRcast, ?_, ?_, ?_, ?_, ?_, ?_, ?_, ?_, ?_, ?_, ?_⟩
  · rw [hAcast, hBcast, hScast, hmins_eq, hsecs_eq]
    ring
  · simp only [secondsToTimeString, if_neg (not_lt.mpr h0)]
    rfl
  · exact (pad2_spec _ (by omega)).1
  · exact (pad2_spec _ (by omega)).1
  · exact (pad2_spec _ (by omega)).1
  · exact (pad3_spec _ (by omega)).1
  · exact (pad2_spec _ (by omega)).2.1
  · exact (pad2_spec _ (by omega)).2.1
  · exact (pad2_spec _ (by omega)).2.1
  · exact (pad3_spec _ (by omega)).2.1
  · with_unfolding_all exact of_decide_eq_true rfl

theorem c3_witness :
    (0 : ℚ) ≤ 90.0006 ∧ (90.0006 : ℚ) < 360000 ∧
      ((90.0006 : ℚ) - ⌊(90.0006 : ℚ)⌋) * 1000 + 1/2 < 1000 ∧
      (∃ hrs mins secs ms : ℕ,
        hrs < 100 ∧ mins < 60 ∧ secs < 60 ∧ ms < 1000 ∧
        (hrs : ℤ) = jsFloor ((90.0006 : ℚ) / 3600) ∧
        (mins : ℤ) = jsFloor (jsMod (90.0006 : ℚ) 3600 / 60) ∧
        (secs : ℤ) = jsFloor (jsMod (90.0006 : ℚ) 60) ∧
        (ms : ℤ) = jsRound (((90.0006 : ℚ) - jsFloor (90.0006 : ℚ)) * 1000) ∧
        (3600 * hrs + 60 * mins + secs : ℤ) = ⌊(90.0006 : ℚ)⌋ ∧
        (secondsToTimeString (some (90.0006 : ℚ))).data
          = pad hrs 2 ++ [':'] ++ pad mins 2 ++ [':'] ++ pad secs 2 ++ [','] ++ pad ms 3 ∧
        (pad hrs 2).length = 2 ∧ (pad mins 2).length = 2 ∧
        (pad secs 2).length = 2 ∧ (pad ms 3).length = 3 ∧
        (∀ c ∈ pad hrs 2, c.isDigit = true) ∧ (∀ c ∈ pad mins 2, c.isDigit = true) ∧
        (∀ c ∈ pad secs 2, c.isDigit = true) ∧ (∀ c ∈ pad ms 3, c.isDigit = true) ∧
        secondsToTimeString (some (90.0006 : ℚ)) = "00:01:30,001") :=
  ⟨by norm_num, by norm_num,
    by with_unfolding_all exact of_decide_eq_true rfl,
    c3_time_format (90.0006 : ℚ) (by norm_num) (by norm_num)
      (by with_unfolding_all exact of_decide_eq_true rfl)⟩

/-- C2 counterexample: on `A(0–1,"hi")`, `B(1.2–2,"there")`,
`C(2.1–3,"friend.")` the export grouping of `toSrt` produces the pair
`[A,B]` followed by the singleton `[C]` — two SRT blocks — and not the
single triplet group `[A,B,C]` the claim demands. -/
theorem c2_counterexample :
    toSrtGroups [⟨0, 1, "hi", none⟩, ⟨1.2, 2, "there", none⟩, ⟨2.1, 3, "friend.", none⟩]
        = [[⟨0, 1, "hi", none⟩, ⟨1.2, 2, "there", none⟩], [⟨2.1, 3, "friend.", none⟩]] ∧
      toSrtGroups [⟨0, 1, "hi", none⟩, ⟨1.2, 2, "there", none⟩, ⟨2.1, 3, "friend.", none⟩]
        ≠ [[⟨0, 1, "hi", none⟩, ⟨1.2, 2, "there", none⟩, ⟨2.1, 3, "friend.", none⟩]] ∧
      toSrt [⟨0, 1, "hi", none⟩, ⟨1.2, 2, "there", none⟩, ⟨2.1, 3, "friend.", none⟩] none
        = "1\n00:00:00,000 --> 00:00:02,000\nhi\nthere\n\n2\n00:00:02,100 --> 00:00:03,000\nfriend." := by
  with_unfolding_all exact of_decide_eq_true rfl

theorem toSrtGroups_shape (l : List SubtitleEntry) :
    ∀ g ∈ toSrtGroups l, (∃ a, g = [a]) ∨
      (∃ a b, g = [a, b] ∧ b.startTime - a.endTime < 1/2 ∧
        endsWithPunctuation a.text = false) := by
  induction l using toSrtGroups.induct with
  | case1 => simp [toSrtGroups]
  | case2 s => simp [toSrtGroups]
  | case3 s1 s2 rest2 hcond ih =>
    intro g hg
    rw [toSrtGroups] at hg
    rw [if_pos hcond] at hg
    rcases List.mem_cons.mp hg with hg | hg
    · right
      refine ⟨s1, s2, hg, ?_, ?_⟩
      · have := (Bool.and_eq_true _ _).mp hcond
        simpa using this.1
      · have := (Bool.and_eq_true _ _).mp hcond
        simpa using this.2
    · exact ih g hg
  | case4 s1 s2 rest2 hcond ih =>
    intro g hg
    rw [toSrtGroups] at hg
    rw [if_neg hcond] at hg
    rcases List.mem_cons.mp hg with hg | hg
    · exact Or.inl ⟨s1, hg⟩
    · exact ih g hg

/-- C2 (amended): on the example input the export grouping yields the pair
`[A,B]` followed by the singleton `[C]` (and the same with `B`'s text
ending in `.`, since only `sub1`'s punctuation is consulted); in general a
group is a singleton or a pair, a pair `[a,b]` forming exactly under
`b.start - a.end < 0.5` with `a`'s text not ending in terminal
punctuation — triplets never form. -/
theorem c2_pair_grouping (l : List SubtitleEntry) (g : List SubtitleEntry)
    (hg : g ∈ toSrtGroups l) :
    (toSrtGroups [⟨0, 1, "hi", none⟩, ⟨1.2, 2, "there", none⟩, ⟨2.1, 3, "friend.", none⟩]
        = [[⟨0, 1, "hi", none⟩, ⟨1.2, 2, "there", none⟩], [⟨2.1, 3, "friend.", none⟩]] ∧
      toSrtGroups [⟨0, 1, "hi", none⟩, ⟨1.2, 2, "there.", none⟩, ⟨2.1, 3, "friend.", none⟩]
        = [[⟨0, 1, "hi", none⟩, ⟨1.2, 2, "there.", none⟩], [⟨2.1, 3, "friend.", none⟩]]) ∧
      g.length ≤ 2 ∧
      (∀ a b, g = [a, b] →
        b.startTime - a.endTime < 1/2 ∧ endsWithPunctuation a.text = false) := by
  refine ⟨⟨by with_unfolding_all exact of_decide_eq_true rfl,
    by with_unfolding_all exact of_decide_eq_true rfl⟩, ?_, ?_⟩
  · rcases toSrtGroups_shape l g hg with ⟨a, rfl⟩ | ⟨a, b, rfl, _, _⟩ <;> simp
  · rintro a b rfl
    rcases toSrtGroups_shape l _ hg with ⟨c, hc⟩ | ⟨c, d, hcd, h1, h2⟩
    · simp at hc
    · obtain ⟨rfl, rfl⟩ : a = c ∧ b = d := by simpa using hcd
      exact ⟨h1, h2⟩

theorem c2_witness :
    ([⟨0, 1, "hi", none⟩, ⟨1.2, 2, "there", none⟩] : List SubtitleEntry)
        ∈ toSrtGroups [⟨0, 1, "hi", none⟩, ⟨1.2, 2, "there", none⟩, ⟨2.1, 3, "friend.", none⟩] ∧
      ((toSrtGroups [⟨0, 1, "hi", none⟩, ⟨1.2, 2, "there", none⟩, ⟨2.1, 3, "friend.", none⟩]
          = [[⟨0, 1, "hi", none⟩, ⟨1.2, 2, "there", none⟩], [⟨2.1, 3, "friend.", none⟩]] ∧
        toSrtGroups [⟨0, 1, "hi", none⟩, ⟨1.2, 2, "there.", none⟩, ⟨2.1, 3, "friend.", none⟩]
          = [[⟨0, 1, "hi", none⟩, ⟨1.2, 2, "there.", none⟩], [⟨2.1, 3, "friend.", none⟩]]) ∧
      ([⟨0, 1, "hi", none⟩, ⟨1.2, 2, "there", none⟩] : List SubtitleEntry).length ≤ 2 ∧
      (∀ a b, ([⟨0, 1, "hi", none⟩, ⟨1.2, 2, "there", none⟩] : List SubtitleEntry) = [a, b] →
        b.startTime - a.endTime < 1/2 ∧ endsWithPunctuation a.text = false)) :=
  ⟨by with_unfolding_all exact of_decide_eq_true rfl,
    c2_pair_grouping
      [⟨0, 1, "hi", none⟩, ⟨1.2, 2, "there", none⟩, ⟨2.1, 3, "friend.", none⟩]
      [⟨0, 1, "hi", none⟩, ⟨1.2, 2, "there", none⟩]
      (by with_unfolding_all exact of_decide_eq_true rfl)⟩

/-- C1 counterexample: the sorted, non-negative sequence
`[(0.9996, 2, "a")]` serializes with a start timestamp `00:00:00,1000`
(millisecond carry), which the parse regex rejects, so the whole block is
dropped and the text `"a"` does not survive the round trip. -/
theorem c1_counterexample :
    toSrt [⟨0.9996, 2, "a", none⟩] none = "1\n00:00:00,1000 --> 00:00:02,000\na" ∧
      parseSrt (toSrt [⟨0.9996, 2, "a", none⟩] none) = [] := by with_unfolding_all exact of_decide_eq_true rfl

theorem deepCopy_id (entries : List SubtitleEntry) : deepCopy entries = entries := by
  induction entries with
  | nil => rfl
  | cons e rest ih => rw [deepCopy, List.map_cons]; rw [deepCopy] at ih; rw [ih]

theorem heapRead_append {h : List (List SubtitleEntry)} {p : ℕ}
    (v : List SubtitleEntry) (hp : p < h.length) :
    heapRead (h ++ [v]) p = heapRead h p := by
  unfold heapRead
  rw [List.getD_eq_getElem?_getD, List.getD_eq_getElem?_getD,
    List.getElem?_append_left hp]

theorem heapRead_append_len (h : List (List SubtitleEntry))
    (v : List SubtitleEntry) : heapRead (h ++ [v]) h.length = v := by
  unfold heapRead
  rw [List.getD_eq_getElem?_getD, List.getElem?_concat_length]
  rfl

theorem heapRead_set_ne {h : List (List SubtitleEntry)} {i j : ℕ}
    (v : List SubtitleEntry) (hij : i ≠ j) :
    heapRead (h.set i v) j = heapRead h j := by
  unfold heapRead
  rw [List.getD_eq_getElem?_getD, List.getD_eq_getElem?_getD,
    List.getElem?_set_ne hij]

theorem heapRead_set_self {h : List (List SubtitleEntry)} {i : ℕ}
    (v : List SubtitleEntry) (hi : i < h.length) :
    heapRead (h.set i v) i = v := by
  unfold heapRead
  rw [List.getD_eq_getElem?_getD, List.getElem?_set_self hi]
  rfl

/-- C9: `toSrt` never mutates the caller's entry array: run against an
explicit heap, the array at the caller's pointer `p` is unchanged by the
call (the duration extension writes only through the freshly allocated
deep copy), and the returned string is the pure `toSrt` of the caller's
array. -/
theorem c9_no_mutation (h : List (List SubtitleEntry)) (p : ℕ) (d : Option ℚ)
    (hp : p < h.length) :
    heapRead (toSrtOnHeap h p d).2 p = heapRead h p ∧
      (toSrtOnHeap h p d).1 = toSrt (heapRead h p) d := by
  rw [toSrtOnHeap, toSrt]
  by_cases h0 : (heapRead h p).length = 0
  · rw [if_pos h0, if_pos h0]
    exact ⟨rfl, rfl⟩
  · rw [if_neg h0, if_neg h0]
    dsimp only
    have hpq : h.length ≠ p := (Nat.ne_of_lt hp).symm
    have hqlt : h.length < (h ++ [deepCopy (heapRead h p)]).length := by simp
    rw [heapRead_append_len h (deepCopy (heapRead h p))]
    split_ifs with hcond
    · cases d with
      | none => simp [jsTruthy] at hcond
      | some dv =>
        cases hlast : (deepCopy (heapRead h p)).getLast? with
        | none =>
          simp only [hlast]
          rw [heapRead_append_len h (deepCopy (heapRead h p))]
          exact ⟨heapRead_append _ hp, rfl⟩
        | some lastEntry =>
          simp only [hlast]
          split_ifs with hext
          · constructor
            · rw [heapRead_set_ne _ hpq, heapRead_append _ hp]
            · rw [heapRead_set_self _ hqlt]
          · rw [heapRead_append_len h (deepCopy (heapRead h p))]
            exact ⟨heapRead_append _ hp, rfl⟩
    · rw [heapRead_append_len h (deepCopy (heapRead h p))]
      exact ⟨heapRead_append _ hp, rfl⟩

theorem c9_witness :
    0 < ([[⟨0, 1, "hi", none⟩]] : List (List SubtitleEntry)).length ∧
      (heapRead (toSrtOnHeap [[⟨0, 1, "hi", none⟩]] 0 (some 5)).2 0
          = heapRead [[⟨0, 1, "hi", none⟩]] 0 ∧
        (toSrtOnHeap [[⟨0, 1, "hi", none⟩]] 0 (some 5)).1
          = toSrt (heapRead [[⟨0, 1, "hi", none⟩]] 0) (some 5)) :=
  ⟨by norm_num, c9_no_mutation [[⟨0, 1, "hi", none⟩]] 0 (some 5) (by norm_num)⟩

theorem splitScan_eq_none (subs : List (ℕ × SubtitleEntry)) (time : ℚ)
    (h : ∀ p ∈ subs, ¬(p.2.startTime < time ∧ time < p.2.endTime)) :
    splitScan subs time = none := by
  induction subs with
  | nil => rfl
  | cons p rest ih =>
    obtain ⟨i, sub⟩ := p
    rw [splitScan]
    rw [if_neg]
    · exact ih fun q hq => h q (List.mem_cons_of_mem _ hq)
    · have := h (i, sub) (List.mem_cons_self _ _)
      simpa using this
theorem splitScan_eq_some (subs : List (ℕ × SubtitleEntry)) (time : ℚ) (i : ℕ)
    (h : splitScan subs time = some i) :
    ∃ p ∈ subs, p.1 = i ∧ p.2.startTime < time ∧ time < p.2.endTime := by
  induction subs with
  | nil => simp [splitScan] at h
  | cons p rest ih =>
    obtain ⟨j, sub⟩ := p
    rw [splitScan] at h
    split_ifs at h with hc
    · obtain rfl : j = i := Option.some.inj h
      exact ⟨(j, sub), List.mem_cons_self _ _, rfl, by simpa using hc⟩
    · obtain ⟨q, hq, hqs⟩ := ih h
      exact ⟨q, List.mem_cons_of_mem _ hq, hqs⟩

theorem dragScan_ne_split (width duration x : ℚ)
    (subs : List (ℕ × SubtitleEntry)) (i : ℕ) (t : ℚ) :
    dragScan width duration x subs ≠ .split i t := by
  induction subs with
  | nil => simp [dragScan]
  | cons p rest ih =>
    obtain ⟨j, sub⟩ := p
    rw [dragScan]
    split_ifs <;> simp_all

/-- C8: a split-intent (Alt) click whose time does not fall strictly
inside any entry's span never resolves to a split action (it falls through
to the drag scan or a seek, neither of which emits a split request or
touches the entry sequence); conversely a split action is emitted only
for an entry whose span strictly contains the click time. -/
theorem c8_split_guard (subtitles : List SubtitleEntry)
    (duration width x : ℚ) (altKey : Bool) (_hw : 0 < width) :
    ((∀ e ∈ subtitles,
        ¬(e.startTime < pxToTime width duration x ∧
          pxToTime width duration x < e.endTime)) →
      ∀ i t, handleMouseDown subtitles duration width x altKey ≠ .split i t) ∧
    (∀ i t, handleMouseDown subtitles duration width x altKey = .split i t →
      t = pxToTime width duration x ∧
        ∃ e, subtitles[i]? = some e ∧ e.startTime < t ∧ t < e.endTime) := by
  constructor
  · intro h i t
    rw [handleMouseDown]
    cases altKey with
    | false => simp only [Bool.false_eq_true, if_false]; exact dragScan_ne_split _ _ _ _ _ _
    | true =>
      simp only [if_true]
      have hnone : splitScan (subtitles.enum.reverse) (pxToTime width duration x) = none := by
        refine splitScan_eq_none _ _ fun p hp => ?_
        have hmem : p ∈ subtitles.enum := List.mem_reverse.mp hp
        have : p.2 ∈ subtitles := by
          have := List.mem_enum_iff_getElem?.mp hmem
          exact List.mem_iff_getElem?.mpr ⟨p.1, this⟩
        exact h p.2 this
      rw [hnone]
      exact dragScan_ne_split _ _ _ _ _ _
  · intro i t hsplit
    rw [handleMouseDown] at hsplit
    cases altKey with
    | false =>
      simp only [Bool.false_eq_true, if_false] at hsplit
      exact absurd hsplit (dragScan_ne_split _ _ _ _ _ _)
    | true =>
      simp only [if_true] at hsplit
      cases hscan : splitScan (subtitles.enum.reverse) (pxToTime width duration x) with
      | none =>
        rw [hscan] at hsplit
        exact absurd hsplit (dragScan_ne_split _ _ _ _ _ _)
      | some j =>
        rw [hscan] at hsplit
        obtain ⟨rfl, rfl⟩ : j = i ∧ pxToTime width duration x = t := by
          constructor
          · exact (MouseDownAction.split.injEq _ _ _ _ ▸ hsplit : _ ∧ _).1
          · exact (MouseDownAction.split.injEq _ _ _ _ ▸ hsplit : _ ∧ _).2
        obtain ⟨p, hp, hpi, hps, hpe⟩ := splitScan_eq_some _ _ _ hscan
        refine ⟨rfl, p.2, ?_, hps, hpe⟩
        have hmem : p ∈ subtitles.enum := List.mem_reverse.mp hp
        have := List.mem_enum_iff_getElem?.mp hmem
        rw [hpi] at this
        exact this

theorem c8_witness :
    (0 : ℚ) < 100 ∧
      ((∀ e ∈ ([⟨1, 2, "a", none⟩] : List SubtitleEntry),
          ¬(e.startTime < pxToTime 100 10 50 ∧ pxToTime 100 10 50 < e.endTime)) →
        ∀ i t, handleMouseDown [⟨1, 2, "a", none⟩] 10 100 50 true ≠ .split i t) ∧
      (∀ i t, handleMouseDown [⟨1, 2, "a", none⟩] 10 100 50 true = .split i t →
        t = pxToTime 100 10 50 ∧
          ∃ e, ([⟨1, 2, "a", none⟩] : List SubtitleEntry)[i]? = some e ∧
            e.startTime < t ∧ t < e.endTime) :=
  ⟨by norm_num, c8_split_guard [⟨1, 2, "a", none⟩] 10 100 50 true (by norm_num)⟩

/-- C7 counterexample: the single-line input
`"00:00:00,000 --> 00:00:01,000"` contains the arrow, matches the strict
timestamp regex, and both timestamps parse — yet `parseSrt` drops it
because the block has fewer than two lines, so the claimed "exactly those
blocks" characterization is false. -/
theorem c7_counterexample :
    parseSrt "00:00:00,000 --> 00:00:01,000" = [] ∧
      containsSeq arrow ("00:00:00,000 --> 00:00:01,000").data = true ∧
      matchTimePair ("00:00:00,000 --> 00:00:01,000").data
        = some (("00:00:00,000").data, ("00:00:01,000").data) ∧
      timeStringToSeconds "00:00:00,000" = some 0 ∧
      timeStringToSeconds "00:00:01,000" = some 1 := by with_unfolding_all exact of_decide_eq_true rfl

/-! ### Character and list facts for the parse direction -/

theorem digit_props {c : Char} (h : c.isDigit = true) :
    jsIsSpace c = false ∧ c ≠ ',' ∧ c ≠ ':' ∧ c ≠ '.' ∧ c ≠ '-' ∧ c ≠ '+' ∧
      c ≠ 'e' ∧ c ≠ 'E' ∧ c ≠ '\n' ∧ c ≠ '\r' ∧ Char.isDigit c = true := by
  refine ⟨?_, ?_, ?_, ?_, ?_, ?_, ?_, ?_, ?_, ?_, h⟩
  · cases hjs : jsIsSpace c with
    | false => rfl
    | true =>
      exfalso
      simp only [jsIsSpace, Bool.or_eq_true, decide_eq_true_eq] at hjs
      rcases hjs with ((((((rfl | rfl) | rfl) | rfl) | rfl) | rfl) | rfl) | rfl <;>
        exact absurd h (by decide)
  all_goals rintro rfl
  all_goals exact absurd h (by decide)

theorem takeWhile_all {p : Char → Bool} :
    ∀ {l : List Char}, (∀ c ∈ l, p c = true) → l.takeWhile p = l := by
  intro l
  induction l with
  | nil => intro _; rfl
  | cons c rest ih =>
    intro h
    rw [List.takeWhile_cons, if_pos (h c (List.mem_cons_self _ _))]
    rw [ih fun d hd => h d (List.mem_cons_of_mem _ hd)]

theorem dropWhile_all {p : Char → Bool} :
    ∀ {l : List Char}, (∀ c ∈ l, p c = true) → l.dropWhile p = [] := by
  intro l
  induction l with
  | nil => intro _; rfl
  | cons c rest ih =>
    intro h
    rw [List.dropWhile_cons, if_pos (h c (List.mem_cons_self _ _))]
    exact ih fun d hd => h d (List.mem_cons_of_mem _ hd)

theorem takeWhile_append_stop {p : Char → Bool} {a b : List Char} {x : Char}
    (ha : ∀ c ∈ a, p c = true) (hx : p x = false) :
    (a ++ x :: b).takeWhile p = a := by
  induction a with
  | nil => simp [List.takeWhile_cons, hx]
  | cons c rest ih =>
    rw [List.cons_append, List.takeWhile_cons,
      if_pos (ha c (List.mem_cons_self _ _))]
    rw [ih fun d hd => ha d (List.mem_cons_of_mem _ hd)]

theorem dropWhile_append_stop {p : Char → Bool} {a b : List Char} {x : Char}
    (ha : ∀ c ∈ a, p c = true) (hx : p x = false) :
    (a ++ x :: b).dropWhile p = x :: b := by
  induction a with
  | nil => simp [List.dropWhile_cons, hx]
  | cons c rest ih =>
    rw [List.cons_append, List.dropWhile_cons,
      if_pos (ha c (List.mem_cons_self _ _))]
    exact ih fun d hd => ha d (List.mem_cons_of_mem _ hd)

theorem splitChar_not_mem {sep : Char} :
    ∀ {a : List Char}, sep ∉ a → splitChar sep a = [a] := by
  intro a
  induction a with
  | nil => intro _; rfl
  | cons c rest ih =>
    intro h
    rw [List.mem_cons, not_or] at h
    rw [splitChar, if_neg (fun hc => h.1 hc.symm)]
    rw [ih h.2]

theorem splitChar_append {sep : Char} {b : List Char} :
    ∀ {a : List Char}, sep ∉ a →
      splitChar sep (a ++ sep :: b) = a :: splitChar sep b := by
  intro a
  induction a with
  | nil => intro _; simp [splitChar]
  | cons c rest ih =>
    intro h
    rw [List.mem_cons, not_or] at h
    rw [List.cons_append, splitChar, if_neg (fun hc => h.1 hc.symm)]
    rw [ih h.2]

theorem replaceFirstChar_append {t r : Char} {b : List Char} :
    ∀ {a : List Char}, t ∉ a →
      replaceFirstChar t r (a ++ t :: b) = a ++ r :: b := by
  intro a
  induction a with
  | nil => intro _; simp [replaceFirstChar]
  | cons c rest ih =>
    intro h
    rw [List.mem_cons, not_or] at h
    rw [List.cons_append, replaceFirstChar, if_neg (fun hc => h.1 hc.symm)]
    rw [ih h.2]
    rfl

/-! ### `jsParseFloat` and `timeStringToSeconds` on digit strings -/


theorem jsParseFloat_digits {ds : List Char}
    (h : ∀ c ∈ ds, c.isDigit = true) (hne : ds ≠ []) :
    jsParseFloat ds = some (natFromDigits ds) := by
  obtain ⟨c, rest, rfl⟩ : ∃ c rest, ds = c :: rest := by
    cases ds with
    | nil => exact absurd rfl hne
    | cons c rest => exact ⟨c, rest, rfl⟩
  have hc := digit_props (h c (List.mem_cons_self _ _))
  have htake := takeWhile_all h
  have hdrop := dropWhile_all h
  rw [jsParseFloat]
  simp only [List.dropWhile_cons, hc.1, Bool.false_eq_true, if_false,
    List.head?_cons, Option.some.injEq, hc.2.2.2.2.1, if_neg, hc.2.2.2.2.2.1,
    htake, hdrop]
  simp [natFromDigits]

theorem jsParseFloat_digits_frac {a b : List Char}
    (ha : ∀ c ∈ a, c.isDigit = true) (hb : ∀ c ∈ b, c.isDigit = true)
    (hane : a ≠ []) :
    jsParseFloat (a ++ '.' :: b)
      = some ((natFromDigits a : ℚ) + (natFromDigits b : ℚ) / 10 ^ b.length) := by
  obtain ⟨c, rest, rfl⟩ : ∃ c rest, a = c :: rest := by
    cases a with
    | nil => exact absurd rfl hane
    | cons c rest => exact ⟨c, rest, rfl⟩
  have hc := digit_props (ha c (List.mem_cons_self _ _))
  have hcd : c.isDigit = true := ha c (List.mem_cons_self _ _)
  have harest : ∀ d ∈ rest, d.isDigit = true :=
    fun d hd => ha d (List.mem_cons_of_mem _ hd)
  have htake2 : List.takeWhile Char.isDigit (rest ++ '.' :: b) = rest :=
    takeWhile_append_stop harest (by decide)
  have hdrop2 : List.dropWhile Char.isDigit (rest ++ '.' :: b) = '.' :: b :=
    dropWhile_append_stop harest (by decide)
  have htb := takeWhile_all hb
  have hdb := dropWhile_all hb
  rw [jsParseFloat]
  simp only [List.cons_append, List.dropWhile_cons, List.takeWhile_cons,
    hc.1, Bool.false_eq_true, if_false, List.head?_cons, Option.some.injEq,
    hc.2.2.2.2.1, if_neg, hc.2.2.2.2.2.1, hcd, if_true, htake2, hdrop2,
    List.tail_cons, htb, hdb]
  simp [natFromDigits]

theorem timeStringToSeconds_digits (d1 d2 d3 d4 d5 d6 d7 d8 d9 : Char)
    (h1 : d1.isDigit = true) (h2 : d2.isDigit = true) (h3 : d3.isDigit = true)
    (h4 : d4.isDigit = true) (h5 : d5.isDigit = true) (h6 : d6.isDigit = true)
    (h7 : d7.isDigit = true) (h8 : d8.isDigit = true) (h9 : d9.isDigit = true) :
    timeStringToSeconds ⟨[d1, d2, ':', d3, d4, ':', d5, d6, ',', d7, d8, d9]⟩
      = some ((natFromDigits [d1, d2] : ℚ) * 3600 + (natFromDigits [d3, d4] : ℚ) * 60 +
          ((natFromDigits [d5, d6] : ℚ) + (natFromDigits [d7, d8, d9] : ℚ) / 1000)) := by
  have e1 := digit_props h1
  have e2 := digit_props h2
  have e3 := digit_props h3
  have e4 := digit_props h4
  have e5 := digit_props h5
  have e6 := digit_props h6
  have e7 := digit_props h7
  have e8 := digit_props h8
  have e9 := digit_props h9
  rw [timeStringToSeconds]
  rw [show String.data ⟨[d1, d2, ':', d3, d4, ':', d5, d6, ',', d7, d8, d9]⟩
      = [d1, d2, ':', d3, d4, ':', d5, d6] ++ ',' :: [d7, d8, d9] from rfl]
  rw [replaceFirstChar_append
    (by simp [Ne.symm e1.2.1, Ne.symm e2.2.1, Ne.symm e3.2.1, Ne.symm e4.2.1,
      Ne.symm e5.2.1, Ne.symm e6.2.1])]
  rw [show [d1, d2, ':', d3, d4, ':', d5, d6] ++ '.' :: [d7, d8, d9]
      = [d1, d2] ++ ':' :: ([d3, d4] ++ ':' :: [d5, d6, '.', d7, d8, d9]) from by simp]
  rw [splitChar_append (by simp [Ne.symm e1.2.2.1, Ne.symm e2.2.2.1])]
  rw [splitChar_append (by simp [Ne.symm e3.2.2.1, Ne.symm e4.2.2.1])]
  rw [splitChar_not_mem (by
    simp [Ne.symm e5.2.2.1, Ne.symm e6.2.2.1, Ne.symm e7.2.2.1,
      Ne.symm e8.2.2.1, Ne.symm e9.2.2.1])]
  dsimp only
  rw [jsParseFloat_digits (by
      intro c hc
      simp only [List.mem_cons, List.not_mem_nil, or_false] at hc
      rcases hc with rfl | rfl
      · exact h1
      · exact h2) (by simp)]
  rw [jsParseFloat_digits (by
      intro c hc
      simp only [List.mem_cons, List.not_mem_nil, or_false] at hc
      rcases hc with rfl | rfl
      · exact h3
      · exact h4) (by simp)]
  rw [show [d5, d6, '.', d7, d8, d9] = [d5, d6] ++ '.' :: [d7, d8, d9] from by simp]
  rw [jsParseFloat_digits_frac (by
      intro c hc
      simp only [List.mem_cons, List.not_mem_nil, or_false] at hc
      rcases hc with rfl | rfl
      · exact h5
      · exact h6)
    (by
      intro c hc
      simp only [List.mem_cons, List.not_mem_nil, or_false] at hc
      rcases hc with rfl | rfl | rfl
      · exact h7
      · exact h8
      · exact h9)
    (by simp)]
  norm_num


theorem parseTimestamp_some {s g r : List Char}
    (h : parseTimestamp s = some (g, r)) :
    ∃ d1 d2 d3 d4 d5 d6 d7 d8 d9 : Char,
      g = [d1, d2, ':', d3, d4, ':', d5, d6, ',', d7, d8, d9] ∧ s = g ++ r ∧
      d1.isDigit = true ∧ d2.isDigit = true ∧ d3.isDigit = true ∧
      d4.isDigit = true ∧ d5.isDigit = true ∧ d6.isDigit = true ∧
      d7.isDigit = true ∧ d8.isDigit = true ∧ d9.isDigit = true := by
  unfold parseTimestamp at h
  split at h
  · next d1 d2 d3 d4 d5 d6 d7 d8 d9 rest =>
    split_ifs at h with hd
    simp only [Option.some.injEq, Prod.mk.injEq] at h
    obtain ⟨rfl, rfl⟩ := h
    simp only [Bool.and_eq_true] at hd
    exact ⟨d1, d2, d3, d4, d5, d6, d7, d8, d9, rfl, by simp,
      hd.1.1.1.1.1.1.1.1, hd.1.1.1.1.1.1.1.2, hd.1.1.1.1.1.1.2,
      hd.1.1.1.1.1.2, hd.1.1.1.1.2, hd.1.1.1.2, hd.1.1.2, hd.1.2, hd.2⟩
  · exact absurd h (by simp)

theorem matchPairAt_parses {s : List Char} {g1 g2 : List Char}
    (h : matchPairAt s = some (g1, g2)) :
    (∃ q, timeStringToSeconds ⟨g1⟩ = some q) ∧
      ∃ q, timeStringToSeconds ⟨g2⟩ = some q := by
  rw [matchPairAt] at h
  cases hp : parseTimestamp s with
  | none => rw [hp] at h; exact absurd h (by simp)
  | some p =>
    obtain ⟨g, r1⟩ := p
    rw [hp] at h
    simp only at h
    split_ifs at h with harr
    cases hp2 : parseTimestamp ((List.dropWhile jsIsSpace r1).drop 3 |>.dropWhile jsIsSpace) with
    | none => rw [hp2] at h; exact absurd h (by simp)
    | some p2 =>
      obtain ⟨g', r2⟩ := p2
      rw [hp2] at h
      simp only [Option.some.injEq, Prod.mk.injEq] at h
      obtain ⟨rfl, rfl⟩ := h
      obtain ⟨a1, a2, a3, a4, a5, a6, a7, a8, a9, rfl, _, ha⟩ := parseTimestamp_some hp
      obtain ⟨b1, b2, b3, b4, b5, b6, b7, b8, b9, rfl, _, hb⟩ := parseTimestamp_some hp2
      constructor
      · exact ⟨_, timeStringToSeconds_digits a1 a2 a3 a4 a5 a6 a7 a8 a9
          ha.1 ha.2.1 ha.2.2.1 ha.2.2.2.1 ha.2.2.2.2.1 ha.2.2.2.2.2.1
          ha.2.2.2.2.2.2.1 ha.2.2.2.2.2.2.2.1 ha.2.2.2.2.2.2.2.2⟩
      · exact ⟨_, timeStringToSeconds_digits b1 b2 b3 b4 b5 b6 b7 b8 b9
          hb.1 hb.2.1 hb.2.2.1 hb.2.2.2.1 hb.2.2.2.2.1 hb.2.2.2.2.2.1
          hb.2.2.2.2.2.2.1 hb.2.2.2.2.2.2.2.1 hb.2.2.2.2.2.2.2.2⟩

theorem matchTimePair_parses {line : List Char} {g1 g2 : List Char}
    (h : matchTimePair line = some (g1, g2)) :
    (∃ q, timeStringToSeconds ⟨g1⟩ = some q) ∧
      ∃ q, timeStringToSeconds ⟨g2⟩ = some q := by
  induction line with
  | nil => simp [matchTimePair] at h
  | cons c rest ih =>
    rw [matchTimePair] at h
    cases hma : matchPairAt (c :: rest) with
    | none =>
      rw [hma] at h
      simp only [Option.none_orElse] at h
      exact ih h
    | some p =>
      rw [hma] at h
      simp only [Option.some_orElse, Option.some.injEq] at h
      subst h
      exact matchPairAt_parses hma

/-- C7 (amended): `parseSrt` never fails as a whole: every block is
parsed independently and dropped exactly when it has fewer than two
lines, no line containing `-->`, or a time line that fails the strict
timestamp regex (a successful regex match always yields two parseable
timestamps, so the claim's "timestamps fail to parse" case never fires);
every surviving block's entry appears in the result. -/
theorem c7_block_tolerance (s : String) (b : List Char)
    (hb : b ∈ splitBlocks (replaceCRLF (jsTrim s.data))) (hs : s.data ≠ []) :
    (parseBlock b = none ↔
      (splitChar '\n' b).length < 2 ∨
      jsFindIndex (fun line => containsSeq arrow line) (splitChar '\n' b) = none ∨
      (∃ i, jsFindIndex (fun line => containsSeq arrow line) (splitChar '\n' b) = some i ∧
        matchTimePair ((splitChar '\n' b).getD i []) = none)) ∧
    ∀ e, parseBlock b = some e → e ∈ parseSrt s := by
  constructor
  · rw [parseBlock]
    by_cases hlen : (splitChar '\n' b).length < 2
    · rw [if_pos hlen]
      exact iff_of_true rfl (Or.inl hlen)
    · rw [if_neg hlen]
      cases hidx : jsFindIndex (fun line => containsSeq arrow line) (splitChar '\n' b) with
      | none =>
        exact iff_of_true rfl (Or.inr (Or.inl rfl))
      | some i =>
        simp only
        cases hm : matchTimePair ((splitChar '\n' b).getD i []) with
        | none =>
          exact iff_of_true rfl (Or.inr (Or.inr ⟨i, rfl, hm⟩))
        | some p =>
          obtain ⟨g1, g2⟩ := p
          obtain ⟨⟨q1, hq1⟩, q2, hq2⟩ := matchTimePair_parses hm
          dsimp only
          rw [hq1, hq2]
          refine iff_of_false (by simp) ?_
          rintro (hc | hc | ⟨i', hi', hm'⟩)
          · exact hlen hc
          · exact Option.noConfusion hc
          · obtain rfl : i = i' := Option.some.inj hi'
            rw [hm] at hm'
            exact Option.noConfusion hm'
  · intro e he
    rw [parseSrt, if_neg hs]
    refine List.reduceOption_mem_iff.mpr ?_
    rw [← he]
    exact List.mem_map_of_mem parseBlock hb

theorem c7_witness :
    ("1\n00:00:00,000 --> 00:00:01,000\nhello").data
        ∈ splitBlocks (replaceCRLF (jsTrim ("1\n00:00:00,000 --> 00:00:01,000\nhello" : String).data)) ∧
      ("1\n00:00:00,000 --> 00:00:01,000\nhello" : String).data ≠ [] ∧
      ((parseBlock ("1\n00:00:00,000 --> 00:00:01,000\nhello").data = none ↔
        (splitChar '\n' ("1\n00:00:00,000 --> 00:00:01,000\nhello").data).length < 2 ∨
        jsFindIndex (fun line => containsSeq arrow line)
          (splitChar '\n' ("1\n00:00:00,000 --> 00:00:01,000\nhello").data) = none ∨
        (∃ i, jsFindIndex (fun line => containsSeq arrow line)
            (splitChar '\n' ("1\n00:00:00,000 --> 00:00:01,000\nhello").data) = some i ∧
          matchTimePair ((splitChar '\n' ("1\n00:00:00,000 --> 00:00:01,000\nhello").data).getD i [])
            = none)) ∧
      ∀ e, parseBlock ("1\n00:00:00,000 --> 00:00:01,000\nhello").data = some e →
        e ∈ parseSrt "1\n00:00:00,000 --> 00:00:01,000\nhello") :=
  ⟨by with_unfolding_all exact of_decide_eq_true rfl,
    by with_unfolding_all exact of_decide_eq_true rfl,
    c7_block_tolerance "1\n00:00:00,000 --> 00:00:01,000\nhello"
      ("1\n00:00:00,000 --> 00:00:01,000\nhello").data
      (by with_unfolding_all exact of_decide_eq_true rfl)
      (by with_unfolding_all exact of_decide_eq_true rfl)⟩

theorem digitChar_isDigit {d : ℕ} (h : d < 10) : (digitChar d).isDigit = true := by
  interval_cases d <;> decide

theorem natStrAux_digits : ∀ (fuel n : ℕ), ∀ c ∈ natStrAux fuel n, c.isDigit = true := by
  intro fuel
  induction fuel with
  | zero => intro n c hc; simp [natStrAux] at hc
  | succ f ih =>
    intro n c hc
    rw [natStrAux] at hc
    split_ifs at hc with hn
    · simp only [List.mem_singleton] at hc
      subst hc
      exact digitChar_isDigit hn
    · rcases List.mem_append.mp hc with hc | hc
      · exact ih _ c hc
      · simp only [List.mem_singleton] at hc
        subst hc
        exact digitChar_isDigit (Nat.mod_lt _ (by omega))

theorem natStr_digits (n : ℕ) : ∀ c ∈ natStr n, c.isDigit = true :=
  natStrAux_digits (n + 1) n

theorem natStr_ne_nil (n : ℕ) : natStr n ≠ [] := by
  rw [natStr, natStrAux]
  split_ifs <;> simp

theorem pad_digits {n size : ℕ} : ∀ c ∈ pad n size, c.isDigit = true := by
  intro c hc
  rw [pad, jsPadStart] at hc
  rcases List.mem_append.mp hc with hc | hc
  · have := List.eq_of_mem_replicate hc
    subst this
    decide
  · exact natStr_digits n c hc

theorem list_len_two {l : List Char} (h : l.length = 2) : ∃ a b, l = [a, b] := by
  match l, h with
  | [a, b], _ => exact ⟨a, b, rfl⟩

theorem list_len_three {l : List Char} (h : l.length = 3) : ∃ a b c, l = [a, b, c] := by
  match l, h with
  | [a, b, c], _ => exact ⟨a, b, c, rfl⟩

theorem stts_fields (t : ℚ) (h0 : 0 ≤ t) (hh : t < 360000)
    (hms : (t - ⌊t⌋) * 1000 + 1/2 < 1000) :
    ∃ hrs mins secs ms : ℕ,
      hrs < 100 ∧ mins < 60 ∧ secs < 60 ∧ ms < 1000 ∧
      (secondsToTimeString (some t)).data
        = pad hrs 2 ++ [':'] ++ pad mins 2 ++ [':'] ++ pad secs 2 ++ [','] ++ pad ms 3 ∧
      ((hrs : ℚ) * 3600 + (mins : ℚ) * 60 + ((secs : ℚ) + (ms : ℚ) / 1000)) = msRoundQ t := by
  have hA0 : (0 : ℤ) ≤ ⌊t / 3600⌋ := Int.floor_nonneg.mpr (by positivity)
  have hAcast := Int.toNat_of_nonneg hA0
  have hAlt : ⌊t / 3600⌋ < 100 := by
    apply Int.floor_lt.mpr
    rw [div_lt_iff₀ (by norm_num : (0:ℚ) < 3600)]
    push_cast
    linarith
  have hM0 : 0 ≤ jsMod t 3600 := jsMod_nonneg h0 (by norm_num)
  have hMlt : jsMod t 3600 < 3600 := jsMod_lt h0 (by norm_num)
  have hB0 : (0 : ℤ) ≤ ⌊jsMod t 3600 / 60⌋ := Int.floor_nonneg.mpr (by positivity)
  have hBcast := Int.toNat_of_nonneg hB0
  have hBlt : ⌊jsMod t 3600 / 60⌋ < 60 := by
    apply Int.floor_lt.mpr
    rw [div_lt_iff₀ (by norm_num : (0:ℚ) < 60)]
    push_cast
    linarith
  have hS0' : 0 ≤ jsMod t 60 := jsMod_nonneg h0 (by norm_num)
  have hSlt' : jsMod t 60 < 60 := jsMod_lt h0 (by norm_num)
  have hS0 : (0 : ℤ) ≤ ⌊jsMod t 60⌋ := Int.floor_nonneg.mpr hS0'
  have hScast := Int.toNat_of_nonneg hS0
  have hSlt : ⌊jsMod t 60⌋ < 60 := by
    apply Int.floor_lt.mpr
    push_cast
    linarith
  have hfrac : 0 ≤ t - ⌊t⌋ := frac_nonneg t
  have hR0 : (0 : ℤ) ≤ ⌊(t - ⌊t⌋) * 1000 + 1/2⌋ := Int.floor_nonneg.mpr (by positivity)
  have hRcast := Int.toNat_of_nonneg hR0
  have hRlt : ⌊(t - ⌊t⌋) * 1000 + 1/2⌋ < 1000 := by
    apply Int.floor_lt.mpr
    push_cast
    linarith
  have hmins_eq : ⌊jsMod t 3600 / 60⌋ = ⌊t / 60⌋ - 60 * ⌊t / 3600⌋ := by
    rw [jsMod_floor h0 (by norm_num : (0:ℚ) < 3600)]
    have heq : (t - 3600 * ⌊t / 3600⌋) / 60 = t / 60 - ((60 * ⌊t / 3600⌋ : ℤ) : ℚ) := by
      push_cast
      ring
    rw [heq, Int.floor_sub_int]
  have hsecs_eq : ⌊jsMod t 60⌋ = ⌊t⌋ - 60 * ⌊t / 60⌋ := by
    rw [jsMod_floor h0 (by norm_num : (0:ℚ) < 60)]
    have heq : t - 60 * ⌊t / 60⌋ = t - ((60 * ⌊t / 60⌋ : ℤ) : ℚ) := by
      push_cast
      ring
    rw [heq, Int.floor_sub_int]
  have hdecomp : (3600 * ⌊t / 3600⌋.toNat + 60 * ⌊jsMod t 3600 / 60⌋.toNat
      + ⌊jsMod t 60⌋.toNat : ℤ) = ⌊t⌋ := by
    rw [hAcast, hBcast, hScast, hmins_eq, hsecs_eq]
    ring
  refine ⟨⌊t / 3600⌋.toNat, ⌊jsMod t 3600 / 60⌋.toNat, ⌊jsMod t 60⌋.toNat,
    ⌊(t - ⌊t⌋) * 1000 + 1/2⌋.toNat, by omega, by omega, by omega, by omega, ?_, ?_⟩
  · simp only [secondsToTimeString, if_neg (not_lt.mpr h0)]
    rfl
  · have hmil : (⌊t⌋ * 1000 + ⌊(t - ⌊t⌋) * 1000 + 1/2⌋ : ℤ) = ⌊t * 1000 + 1/2⌋ := by
      have ht1000 : t * 1000 + 1/2 = ((⌊t⌋ * 1000 : ℤ) : ℚ) + ((t - ⌊t⌋) * 1000 + 1/2) := by
        push_cast
        ring
      rw [ht1000, Int.floor_int_add]
    have hdecompZ : (3600 * ⌊t / 3600⌋ + 60 * ⌊jsMod t 3600 / 60⌋ + ⌊jsMod t 60⌋ : ℤ)
        = ⌊t⌋ := by
      rw [hmins_eq, hsecs_eq]
      ring
    have qa : ((⌊t / 3600⌋.toNat : ℕ) : ℚ) = ((⌊t / 3600⌋ : ℤ) : ℚ) := by
      exact_mod_cast congrArg (fun z : ℤ => (z : ℚ)) hAcast
    have qb : ((⌊jsMod t 3600 / 60⌋.toNat : ℕ) : ℚ) = ((⌊jsMod t 3600 / 60⌋ : ℤ) : ℚ) := by
      exact_mod_cast congrArg (fun z : ℤ => (z : ℚ)) hBcast
    have qc : ((⌊jsMod t 60⌋.toNat : ℕ) : ℚ) = ((⌊jsMod t 60⌋ : ℤ) : ℚ) := by
      exact_mod_cast congrArg (fun z : ℤ => (z : ℚ)) hScast
    have qr : ((⌊(t - ⌊t⌋) * 1000 + 1/2⌋.toNat : ℕ) : ℚ)
        = ((⌊(t - ⌊t⌋) * 1000 + 1/2⌋ : ℤ) : ℚ) := by
      exact_mod_cast congrArg (fun z : ℤ => (z : ℚ)) hRcast
    have hdq : (3600 : ℚ) * ((⌊t / 3600⌋ : ℤ) : ℚ) + 60 * ((⌊jsMod t 3600 / 60⌋ : ℤ) : ℚ)
        + ((⌊jsMod t 60⌋ : ℤ) : ℚ) = ((⌊t⌋ : ℤ) : ℚ) := by
      exact_mod_cast congrArg (fun z : ℤ => (z : ℚ)) hdecompZ
    rw [msRoundQ, jsRound, ← hmil, qa, qb, qc, qr]
    push_cast at hdq ⊢
    linarith [hdq]

theorem stts_shape (t : ℚ) (ht : goodTime t) :
    ∃ d1 d2 d3 d4 d5 d6 d7 d8 d9 : Char,
      (secondsToTimeString (some t)).data
        = [d1, d2, ':', d3, d4, ':', d5, d6, ',', d7, d8, d9] ∧
      d1.isDigit = true ∧ d2.isDigit = true ∧ d3.isDigit = true ∧
      d4.isDigit = true ∧ d5.isDigit = true ∧ d6.isDigit = true ∧
      d7.isDigit = true ∧ d8.isDigit = true ∧ d9.isDigit = true ∧
      (natFromDigits [d1, d2] : ℚ) * 3600 + (natFromDigits [d3, d4] : ℚ) * 60 +
        ((natFromDigits [d5, d6] : ℚ) + (natFromDigits [d7, d8, d9] : ℚ) / 1000)
        = msRoundQ t := by
  obtain ⟨h0, hh, hms⟩ := ht
  obtain ⟨hrs, mins, secs, ms, hhrs, hmins, hsecs, hmsb, hdata, hval⟩ :=
    stts_fields t h0 hh hms
  obtain ⟨a1, a2, ha⟩ := list_len_two (pad2_spec hrs hhrs).1
  obtain ⟨b1, b2, hb⟩ := list_len_two (pad2_spec mins (by omega)).1
  obtain ⟨c1, c2, hc⟩ := list_len_two (pad2_spec secs (by omega)).1
  obtain ⟨e1, e2, e3, he⟩ := list_len_three (pad3_spec ms hmsb).1
  have hna : natFromDigits [a1, a2] = hrs := ha ▸ (pad2_spec hrs hhrs).2.2
  have hnb : natFromDigits [b1, b2] = mins := hb ▸ (pad2_spec mins (by omega)).2.2
  have hnc : natFromDigits [c1, c2] = secs := hc ▸ (pad2_spec secs (by omega)).2.2
  have hne : natFromDigits [e1, e2, e3] = ms := he ▸ (pad3_spec ms hmsb).2.2
  refine ⟨a1, a2, b1, b2, c1, c2, e1, e2, e3, ?_, ?_, ?_, ?_, ?_, ?_, ?_, ?_, ?_, ?_, ?_⟩
  · rw [hdata, ha, hb, hc, he]
    rfl
  · exact (pad2_spec hrs hhrs).2.1 a1 (ha ▸ by simp)
  · exact (pad2_spec hrs hhrs).2.1 a2 (ha ▸ by simp)
  · exact (pad2_spec mins (by omega)).2.1 b1 (hb ▸ by simp)
  · exact (pad2_spec mins (by omega)).2.1 b2 (hb ▸ by simp)
  · exact (pad2_spec secs (by omega)).2.1 c1 (hc ▸ by simp)
  · exact (pad2_spec secs (by omega)).2.1 c2 (hc ▸ by simp)
  · exact (pad3_spec ms hmsb).2.1 e1 (he ▸ by simp)
  · exact (pad3_spec ms hmsb).2.1 e2 (he ▸ by simp)
  · exact (pad3_spec ms hmsb).2.1 e3 (he ▸ by simp)
  · rw [hna, hnb, hnc, hne]
    exact hval

theorem jsTrim_eq_self {s : List Char}
    (h1 : ∀ c, s.head? = some c → jsIsSpace c = false)
    (h2 : ∀ c, s.getLast? = some c → jsIsSpace c = false) : jsTrim s = s := by
  cases s with
  | nil => rfl
  | cons c cs =>
    rw [jsTrim]
    rw [List.dropWhile_cons, if_neg (by simp [h1 c rfl])]
    have hrev : (c :: cs).reverse ≠ [] := by simp
    obtain ⟨d, ds, hd⟩ : ∃ d ds, (c :: cs).reverse = d :: ds := by
      cases hx : (c :: cs).reverse with
      | nil => exact absurd hx hrev
      | cons d ds => exact ⟨d, ds, rfl⟩
    have hdlast : (c :: cs).getLast? = some d := by
      rw [← List.head?_reverse, hd]
      rfl
    rw [hd, List.dropWhile_cons, if_neg (by simp [h2 d hdlast])]
    rw [← hd, List.reverse_reverse]

theorem jsTrim_length_le (s : List Char) :
    (jsTrim s).length ≤ (s.dropWhile jsIsSpace).length := by
  rw [jsTrim]
  calc ((((s.dropWhile jsIsSpace).reverse).dropWhile jsIsSpace).reverse).length
      = (((s.dropWhile jsIsSpace).reverse).dropWhile jsIsSpace).length := by
        rw [List.length_reverse]
    _ ≤ ((s.dropWhile jsIsSpace).reverse).length := (List.dropWhile_sublist _).length_le
    _ = (s.dropWhile jsIsSpace).length := by rw [List.length_reverse]

theorem goodText_head {t : String} (h : goodText t) :
    ∀ c, t.data.head? = some c → jsIsSpace c = false := by
  obtain ⟨hne, _, _, htrim⟩ := h
  intro c hc
  by_contra hws
  simp only [Bool.not_eq_false] at hws
  obtain ⟨cs, hcs⟩ : ∃ cs, t.data = c :: cs := by
    cases hd : t.data with
    | nil => rw [hd] at hc; exact Option.noConfusion hc
    | cons x xs =>
      rw [hd] at hc
      exact ⟨xs, by rw [show c = x from (Option.some.inj hc).symm]⟩
  have hlen : (jsTrim t.data).length < t.data.length := by
    rw [hcs]
    calc (jsTrim (c :: cs)).length
        ≤ ((c :: cs).dropWhile jsIsSpace).length := jsTrim_length_le _
      _ = (cs.dropWhile jsIsSpace).length := by rw [List.dropWhile_cons, if_pos hws]
      _ ≤ cs.length := (List.dropWhile_sublist _).length_le
      _ < (c :: cs).length := by simp
  rw [htrim] at hlen
  exact lt_irrefl _ hlen

theorem goodText_last {t : String} (h : goodText t) :
    ∀ c, t.data.getLast? = some c → jsIsSpace c = false := by
  have hhead := goodText_head h
  obtain ⟨hne, _, _, htrim⟩ := h
  intro c hc
  by_contra hws
  simp only [Bool.not_eq_false] at hws
  have hdrop : t.data.dropWhile jsIsSpace = t.data := by
    cases hd : t.data with
    | nil => rfl
    | cons x xs =>
      rw [List.dropWhile_cons, if_neg (by simp [hhead x (by rw [hd]; rfl)])]
  have hrevhead : t.data.reverse.head? = some c := by
    rw [List.head?_reverse]
    exact hc
  obtain ⟨ds, hds⟩ : ∃ ds, t.data.reverse = c :: ds := by
    cases hx : t.data.reverse with
    | nil => rw [hx] at hrevhead; exact Option.noConfusion hrevhead
    | cons d ds =>
      rw [hx] at hrevhead
      exact ⟨ds, by rw [show c = d from (Option.some.inj hrevhead).symm]⟩
  have hlen : (jsTrim t.data).length < t.data.length := by
    rw [jsTrim, hdrop, hds]
    rw [List.length_reverse, List.dropWhile_cons, if_pos hws]
    calc (ds.dropWhile jsIsSpace).length
        ≤ ds.length := (List.dropWhile_sublist _).length_le
      _ < (c :: ds).length := by simp
      _ = t.data.reverse.length := by rw [hds]
      _ = t.data.length := by rw [List.length_reverse]
  rw [htrim] at hlen
  exact lt_irrefl _ hlen

theorem replaceCRLF_eq_self : ∀ {s : List Char}, '\r' ∉ s → replaceCRLF s = s
  | [], _ => rfl
  | [_], _ => rfl
  | c :: d :: rest, h => by
    rw [replaceCRLF,
      if_neg (fun hand => h (by rw [← hand.1]; exact List.mem_cons_self _ _))]
    rw [replaceCRLF_eq_self (fun hmem => h (List.mem_cons_of_mem _ hmem))]

theorem containsSeq_head_false {p : Char} {ps s : List Char} (h : p ∉ s) :
    containsSeq (p :: ps) s = false := by
  induction s with
  | nil => rfl
  | cons c rest ih =>
    rw [List.mem_cons, not_or] at h
    rw [containsSeq]
    have hpre : (p :: ps).isPrefixOf (c :: rest) = false := by
      rw [List.isPrefixOf]
      simp [beq_eq_false_iff_ne.mpr h.1]
    rw [hpre, ih h.2]
    rfl

theorem containsSeq_append_right {p s t : List Char}
    (h : containsSeq p t = true) : containsSeq p (s ++ t) = true := by
  induction s with
  | nil => exact h
  | cons c rest ih =>
    rw [List.cons_append, containsSeq, ih]
    simp

theorem isPrefixOf_arrow (rest : List Char) :
    arrow.isPrefixOf ('-' :: '-' :: '>' :: rest) = true := by
  simp [arrow, List.isPrefixOf]

theorem containsSeq_arrow_after_space (rest : List Char) :
    containsSeq arrow (' ' :: '-' :: '-' :: '>' :: rest) = true := by
  rw [containsSeq, containsSeq, isPrefixOf_arrow]
  simp

theorem intercalate_cons_sepJoin :
    ∀ (bs : List (List Char)) (b : List Char),
      List.intercalate ['\n', '\n'] (b :: bs) = b ++ sepJoin bs := by
  intro bs
  induction bs with
  | nil => intro b; simp [List.intercalate, sepJoin]
  | cons x xs ih =>
    intro b
    rw [sepJoin, show b ++ '\n' :: '\n' :: (x ++ sepJoin xs)
        = b ++ ['\n', '\n'] ++ (x ++ sepJoin xs) from by simp]
    rw [← ih x]
    simp [List.intercalate, List.intersperse]

theorem joinChar_single (x : List Char) : joinChar '\n' [x] = x := by
  simp [joinChar, List.intercalate]

theorem joinChar_pair (x y : List Char) : joinChar '\n' [x, y] = x ++ '\n' :: y := by
  simp [joinChar, List.intercalate, List.intersperse]


/-! ### `nlOK` and reconstruction of the block splitter -/

theorem nlOK_of_not_mem {a : List Char} (h : '\n' ∉ a) : nlOK a := by
  intro u v huv
  exact absurd (by rw [huv]; exact List.mem_append_right u (List.mem_cons_self '\n' v) : '\n' ∈ a) h

theorem nlOK_tail {c : Char} {b : List Char} (h : nlOK (c :: b)) : nlOK b := by
  intro u v huv
  exact h (c :: u) v (by rw [huv, List.cons_append])

theorem nlOK_append_cons : ∀ {a : List Char}, '\n' ∉ a → ∀ {v : List Char}, nlOK v →
    (∀ c, v.head? = some c → jsIsSpace c = false) → v ≠ [] → nlOK (a ++ '\n' :: v)
  | [], _, v, hv, hvh, hvne => by
    intro u w huw
    rw [List.nil_append] at huw
    cases u with
    | nil =>
      rw [List.nil_append] at huw
      injection huw with _ h2
      subst h2
      obtain ⟨c, cs, rfl⟩ : ∃ c cs, v = c :: cs := by
        cases v with
        | nil => exact absurd rfl hvne
        | cons c cs => exact ⟨c, cs, rfl⟩
      exact ⟨c, cs, rfl, hvh c rfl⟩
    | cons uc u' =>
      rw [List.cons_append] at huw
      injection huw with h1 h2
      exact hv u' w h2
  | c :: a', ha, v, hv, hvh, hvne => by
    intro u w huw
    rw [List.cons_append] at huw
    cases u with
    | nil =>
      rw [List.nil_append] at huw
      injection huw with h1 h2
      exact absurd (by rw [h1]; exact List.mem_cons_self _ _ : '\n' ∈ c :: a') ha
    | cons uc u' =>
      rw [List.cons_append] at huw
      injection huw with h1 h2
      exact nlOK_append_cons (fun hm => ha (List.mem_cons_of_mem _ hm)) hv hvh hvne u' w h2

theorem findSep_cons_ne {c : Char} {rest : List Char} (hc : c ≠ '\n') :
    findSep (c :: rest) = none := by
  rw [findSep, if_neg hc]

theorem findSep_nl_nonspace {c2 : Char} {w : List Char} (hws : jsIsSpace c2 = false) :
    findSep ('\n' :: c2 :: w) = none := by
  rw [findSep, if_pos rfl]
  rw [List.takeWhile_cons, if_neg (by simp [hws])]
  rfl

theorem findSep_sep {x rest : List Char}
    (hx : ∀ c, x.head? = some c → jsIsSpace c = false) (hne : x ≠ []) :
    findSep ('\n' :: '\n' :: (x ++ rest)) = some (x ++ rest) := by
  obtain ⟨xh, xt, rfl⟩ : ∃ xh xt, x = xh :: xt := by
    cases x with
    | nil => exact absurd rfl hne
    | cons xh xt => exact ⟨xh, xt, rfl⟩
  rw [findSep, if_pos rfl]
  rw [show ('\n' :: ((xh :: xt) ++ rest)).takeWhile jsIsSpace = ['\n'] from by
    rw [List.takeWhile_cons, if_pos (by decide), List.cons_append,
      List.takeWhile_cons, if_neg (by simp [hx xh rfl])]]
  rfl

theorem splitBlocksAux_cons_none {f : ℕ} {c : Char} {rest acc : List Char}
    (h : findSep (c :: rest) = none) :
    splitBlocksAux (f + 1) (c :: rest) acc = splitBlocksAux f rest (c :: acc) := by
  rw [show splitBlocksAux (f + 1) (c :: rest) acc =
      match findSep (c :: rest) with
      | some r => acc.reverse :: splitBlocksAux f r []
      | none => splitBlocksAux f rest (c :: acc) from rfl, h]

theorem splitBlocksAux_cons_some {f : ℕ} {c : Char} {rest acc r : List Char}
    (h : findSep (c :: rest) = some r) :
    splitBlocksAux (f + 1) (c :: rest) acc = acc.reverse :: splitBlocksAux f r [] := by
  rw [show splitBlocksAux (f + 1) (c :: rest) acc =
      match findSep (c :: rest) with
      | some r => acc.reverse :: splitBlocksAux f r []
      | none => splitBlocksAux f rest (c :: acc) from rfl, h]

/-- With enough fuel, splitting a `'\n\n'`-join of blocks whose members are
well-formed recovers exactly the blocks. -/
theorem splitBlocksAux_join :
    ∀ (fuel : ℕ) (b acc : List Char) (bs : List (List Char)),
      (b ++ sepJoin bs).length ≤ fuel → nlOK b →
      (∀ x ∈ bs, goodBlockP x) →
      splitBlocksAux fuel (b ++ sepJoin bs) acc = (acc.reverse ++ b) :: bs := by
  intro fuel
  induction fuel with
  | zero =>
    intro b acc bs hlen hb hbs
    obtain rfl : b = [] := by
      cases b with
      | nil => rfl
      | cons c cs => simp at hlen
    obtain rfl : bs = [] := by
      cases bs with
      | nil => rfl
      | cons x xs => rw [sepJoin] at hlen; simp at hlen
    simp [sepJoin, splitBlocksAux]
  | succ f ih =>
    intro b acc bs hlen hb hbs
    cases b with
    | nil =>
      cases bs with
      | nil => simp [sepJoin, splitBlocksAux]
      | cons x xs =>
        have hx := hbs x (List.mem_cons_self _ _)
        rw [List.nil_append, sepJoin]
        rw [splitBlocksAux_cons_some (findSep_sep hx.2.1 hx.1)]
        rw [ih x [] xs ?_ hx.2.2.2 (fun y hy => hbs y (List.mem_cons_of_mem _ hy))]
        · simp
        · rw [List.nil_append, sepJoin] at hlen
          simp only [List.length_cons] at hlen
          omega
    | cons c b' =>
      have hb' : nlOK b' := nlOK_tail hb
      have hfind : findSep (c :: (b' ++ sepJoin bs)) = none := by
        by_cases hc : c = '\n'
        · subst hc
          obtain ⟨c2, w, hw, hws⟩ := hb [] b' (by rw [List.nil_append])
          rw [hw, List.cons_append]
          exact findSep_nl_nonspace hws
        · exact findSep_cons_ne hc
      rw [List.cons_append, splitBlocksAux_cons_none hfind]
      rw [ih b' (c :: acc) bs ?_ hb' hbs]
      · simp
      · rw [List.cons_append] at hlen
        simp only [List.length_cons] at hlen
        omega

theorem splitBlocks_join {b : List Char} {bs : List (List Char)}
    (hb : nlOK b) (hbs : ∀ x ∈ bs, goodBlockP x) :
    splitBlocks (b ++ sepJoin bs) = b :: bs := by
  rw [splitBlocks, splitBlocksAux_join _ _ _ _ le_rfl hb hbs]
  simp


/-! ### `splitChar`/`joinChar` inversion and character classes of a block -/

theorem splitChar_ne_nil (sep : Char) : ∀ (l : List Char), splitChar sep l ≠ []
  | [] => by simp [splitChar]
  | c :: rest => by
    rw [splitChar]
    split
    · simp
    · split <;> simp

theorem joinChar_one (sep : Char) (x : List Char) : joinChar sep [x] = x := by
  simp [joinChar, List.intercalate]

theorem joinChar_cons_cons (sep : Char) (x y : List Char) (ys : List (List Char)) :
    joinChar sep (x :: y :: ys) = x ++ sep :: joinChar sep (y :: ys) := by
  simp [joinChar, List.intercalate, List.intersperse]

theorem joinChar_cons_head (sep c : Char) (p : List Char) (ps : List (List Char)) :
    joinChar sep ((c :: p) :: ps) = c :: joinChar sep (p :: ps) := by
  cases ps with
  | nil => rw [joinChar_one, joinChar_one]
  | cons q qs => rw [joinChar_cons_cons, joinChar_cons_cons, List.cons_append]

theorem joinChar_splitChar (sep : Char) : ∀ (l : List Char), joinChar sep (splitChar sep l) = l
  | [] => by simp [splitChar, joinChar, List.intercalate]
  | c :: rest => by
    obtain ⟨p, ps, hps⟩ : ∃ p ps, splitChar sep rest = p :: ps := by
      match h : splitChar sep rest with
      | [] => exact absurd h (splitChar_ne_nil sep rest)
      | p :: ps => exact ⟨p, ps, rfl⟩
    rw [splitChar]
    split_ifs with hc
    · rw [hps, joinChar_cons_cons, List.nil_append, ← hps,
        joinChar_splitChar sep rest, hc]
    · rw [hps]
      rw [show (match p :: ps with
          | [] => [[c]]
          | p :: ps => (c :: p) :: ps) = (c :: p) :: ps from rfl]
      rw [joinChar_cons_head, ← hps, joinChar_splitChar sep rest]

theorem head?_append_left {l₁ l₂ : List Char} (h : l₁ ≠ []) :
    (l₁ ++ l₂).head? = l₁.head? := by
  cases l₁ with
  | nil => exact absurd rfl h
  | cons c cs => rfl

theorem getLast?_append_right {l₁ l₂ : List Char} (h : l₂ ≠ []) :
    (l₁ ++ l₂).getLast? = l₂.getLast? := by
  rw [← List.head?_reverse, List.reverse_append,
    head?_append_left (by simpa using h), List.head?_reverse]

theorem natStr_no_nl (n : ℕ) : '\n' ∉ natStr n :=
  fun hm => absurd (natStr_digits n _ hm) (by decide)

theorem natStr_not_arrow (n : ℕ) : containsSeq arrow (natStr n) = false :=
  containsSeq_head_false
    (fun hm => (digit_props (natStr_digits n _ hm)).2.2.2.2.1 rfl)

theorem stts_chars {t : ℚ} (h0 : 0 ≤ t) :
    ∀ x ∈ (secondsToTimeString (some t)).data, x.isDigit = true ∨ x = ':' ∨ x = ',' := by
  intro x hx
  rw [secondsToTimeString, if_neg (not_lt.mpr h0)] at hx
  simp only [List.mem_append, List.mem_cons, List.not_mem_nil, or_false] at hx
  rcases hx with ((((((hx | hx) | hx) | hx) | hx) | hx) | hx)
  · exact Or.inl (pad_digits x hx)
  · exact Or.inr (Or.inl hx)
  · exact Or.inl (pad_digits x hx)
  · exact Or.inr (Or.inl hx)
  · exact Or.inl (pad_digits x hx)
  · exact Or.inr (Or.inr hx)
  · exact Or.inl (pad_digits x hx)

theorem mem_srtTimeLine {a b : ℚ} {x : Char} (h0a : 0 ≤ a) (h0b : 0 ≤ b)
    (hx : x ∈ srtTimeLine a b) :
    x.isDigit = true ∨ x = ':' ∨ x = ',' ∨ x = ' ' ∨ x = '-' ∨ x = '>' := by
  rw [srtTimeLine, List.mem_append, List.mem_append] at hx
  rcases hx with (hx | hx) | hx
  · rcases stts_chars h0a x hx with h | h | h
    · exact Or.inl h
    · exact Or.inr (Or.inl h)
    · exact Or.inr (Or.inr (Or.inl h))
  · have hx' : x = ' ' ∨ x = '-' ∨ x = '>' := by
      simp only [arrow, List.mem_append, List.mem_cons, List.not_mem_nil, or_false] at hx
      tauto
    rcases hx' with rfl | rfl | rfl <;> decide
  · rcases stts_chars h0b x hx with h | h | h
    · exact Or.inl h
    · exact Or.inr (Or.inl h)
    · exact Or.inr (Or.inr (Or.inl h))

theorem srtTimeLine_no_nl {a b : ℚ} (h0a : 0 ≤ a) (h0b : 0 ≤ b) :
    '\n' ∉ srtTimeLine a b := by
  intro hm
  rcases mem_srtTimeLine h0a h0b hm with h | h | h | h | h | h <;>
    exact absurd h (by decide)

theorem srtTimeLine_no_cr {a b : ℚ} (h0a : 0 ≤ a) (h0b : 0 ≤ b) :
    '\r' ∉ srtTimeLine a b := by
  intro hm
  rcases mem_srtTimeLine h0a h0b hm with h | h | h | h | h | h <;>
    exact absurd h (by decide)

theorem parseTimestamp_digits {d1 d2 d3 d4 d5 d6 d7 d8 d9 : Char} {rest : List Char}
    (h : (d1.isDigit && d2.isDigit && d3.isDigit && d4.isDigit && d5.isDigit &&
        d6.isDigit && d7.isDigit && d8.isDigit && d9.isDigit) = true) :
    parseTimestamp
        (d1 :: d2 :: ':' :: d3 :: d4 :: ':' :: d5 :: d6 :: ',' :: d7 :: d8 :: d9 :: rest)
      = some ([d1, d2, ':', d3, d4, ':', d5, d6, ',', d7, d8, d9], rest) := by
  rw [parseTimestamp, if_pos h]


/-! ### Parsing a rendered block -/

theorem srtTimeLine_ne_nil {a b : ℚ} : srtTimeLine a b ≠ [] := by
  rw [srtTimeLine]
  simp [arrow]

theorem matchTimePair_srtTimeLine {a b : ℚ} (ha : goodTime a) (hb : goodTime b) :
    ∃ g1 g2, matchTimePair (srtTimeLine a b) = some (g1, g2) ∧
      timeStringToSeconds ⟨g1⟩ = some (msRoundQ a) ∧
      timeStringToSeconds ⟨g2⟩ = some (msRoundQ b) := by
  obtain ⟨a1, a2, a3, a4, a5, a6, a7, a8, a9, hadata,
    ha1, ha2, ha3, ha4, ha5, ha6, ha7, ha8, ha9, haval⟩ := stts_shape a ha
  obtain ⟨b1, b2, b3, b4, b5, b6, b7, b8, b9, hbdata,
    hb1, hb2, hb3, hb4, hb5, hb6, hb7, hb8, hb9, hbval⟩ := stts_shape b hb
  have hl2 : srtTimeLine a b
      = a1 :: a2 :: ':' :: a3 :: a4 :: ':' :: a5 :: a6 :: ',' :: a7 :: a8 :: a9 ::
        ' ' :: '-' :: '-' :: '>' :: ' ' ::
        [b1, b2, ':', b3, b4, ':', b5, b6, ',', b7, b8, b9] := by
    rw [srtTimeLine, hadata, hbdata]
    rfl
  have hmp : matchPairAt
      (a1 :: a2 :: ':' :: a3 :: a4 :: ':' :: a5 :: a6 :: ',' :: a7 :: a8 :: a9 ::
        ' ' :: '-' :: '-' :: '>' :: ' ' ::
        [b1, b2, ':', b3, b4, ':', b5, b6, ',', b7, b8, b9])
      = some ([a1, a2, ':', a3, a4, ':', a5, a6, ',', a7, a8, a9],
          [b1, b2, ':', b3, b4, ':', b5, b6, ',', b7, b8, b9]) := by
    rw [matchPairAt,
      parseTimestamp_digits (by simp [ha1, ha2, ha3, ha4, ha5, ha6, ha7, ha8, ha9])]
    have hr2 : (' ' :: '-' :: '-' :: '>' :: ' ' ::
        [b1, b2, ':', b3, b4, ':', b5, b6, ',', b7, b8, b9]).dropWhile jsIsSpace
        = '-' :: '-' :: '>' :: ' ' ::
          [b1, b2, ':', b3, b4, ':', b5, b6, ',', b7, b8, b9] := by
      rw [List.dropWhile_cons, if_pos (by decide), List.dropWhile_cons,
        if_neg (by decide)]
    have hr3 : ((('-' :: '-' :: '>' :: ' ' ::
        [b1, b2, ':', b3, b4, ':', b5, b6, ',', b7, b8, b9]).drop 3).dropWhile jsIsSpace)
        = [b1, b2, ':', b3, b4, ':', b5, b6, ',', b7, b8, b9] := by
      rw [show ('-' :: '-' :: '>' :: ' ' ::
          [b1, b2, ':', b3, b4, ':', b5, b6, ',', b7, b8, b9]).drop 3
          = ' ' :: [b1, b2, ':', b3, b4, ':', b5, b6, ',', b7, b8, b9] from rfl]
      rw [List.dropWhile_cons, if_pos (by decide), List.dropWhile_cons,
        if_neg (by simp [(digit_props hb1).1])]
    dsimp only
    rw [hr2, if_pos (isPrefixOf_arrow _), hr3,
      parseTimestamp_digits (by simp [hb1, hb2, hb3, hb4, hb5, hb6, hb7, hb8, hb9])]
  refine ⟨[a1, a2, ':', a3, a4, ':', a5, a6, ',', a7, a8, a9],
    [b1, b2, ':', b3, b4, ':', b5, b6, ',', b7, b8, b9], ?_, ?_, ?_⟩
  · rw [hl2, matchTimePair, hmp]
    rfl
  · rw [timeStringToSeconds_digits a1 a2 a3 a4 a5 a6 a7 a8 a9
      ha1 ha2 ha3 ha4 ha5 ha6 ha7 ha8 ha9, haval]
  · rw [timeStringToSeconds_digits b1 b2 b3 b4 b5 b6 b7 b8 b9
      hb1 hb2 hb3 hb4 hb5 hb6 hb7 hb8 hb9, hbval]

theorem containsSeq_srtTimeLine {a b : ℚ} :
    containsSeq arrow (srtTimeLine a b) = true := by
  rw [srtTimeLine, List.append_assoc]
  exact containsSeq_append_right (by
    rw [show ((' ' :: arrow) ++ [' ']) ++ (secondsToTimeString (some b)).data
        = ' ' :: '-' :: '-' :: '>' :: ' ' :: (secondsToTimeString (some b)).data from rfl]
    exact containsSeq_arrow_after_space _)

/-- Parsing one rendered SRT block recovers the start and end times rounded
to milliseconds and the text verbatim. -/
theorem parseBlock_render {a b : ℚ} {txt : List Char} (ha : goodTime a) (hb : goodTime b)
    (idx : ℕ)
    (hhead : ∀ c, txt.head? = some c → jsIsSpace c = false)
    (hlast : ∀ c, txt.getLast? = some c → jsIsSpace c = false) :
    parseBlock (natStr idx ++ '\n' :: (srtTimeLine a b ++ '\n' :: txt))
      = some ⟨msRoundQ a, msRoundQ b, ⟨txt⟩, none⟩ := by
  obtain ⟨g1, g2, hmt, hts1, hts2⟩ := matchTimePair_srtTimeLine ha hb
  have hsplit : splitChar '\n' (natStr idx ++ '\n' :: (srtTimeLine a b ++ '\n' :: txt))
      = natStr idx :: srtTimeLine a b :: splitChar '\n' txt := by
    rw [splitChar_append (natStr_no_nl idx),
      splitChar_append (srtTimeLine_no_nl ha.1 hb.1)]
  have hfi : jsFindIndex (fun line => containsSeq arrow line)
      (natStr idx :: srtTimeLine a b :: splitChar '\n' txt) = some 1 := by
    rw [jsFindIndex, if_neg (by simp [natStr_not_arrow idx]),
      jsFindIndex, if_pos (by simp [containsSeq_srtTimeLine])]
    rfl
  rw [parseBlock, hsplit]
  dsimp only
  rw [if_neg (by simp only [List.length_cons]; omega)]
  rw [hfi]
  dsimp only
  rw [show (natStr idx :: srtTimeLine a b :: splitChar '\n' txt).getD 1 []
      = srtTimeLine a b from rfl]
  rw [hmt]
  dsimp only
  rw [hts1, hts2]
  rw [show (natStr idx :: srtTimeLine a b :: splitChar '\n' txt).drop (1 + 1)
      = splitChar '\n' txt from rfl]
  rw [joinChar_splitChar, jsTrim_eq_self hhead hlast]

/-- A rendered SRT block is well formed for the block splitter. -/
theorem renderBlock_good {a b : ℚ} {txt : List Char} (ha : goodTime a) (hb : goodTime b)
    (idx : ℕ) (htne : txt ≠ [])
    (hhead : ∀ c, txt.head? = some c → jsIsSpace c = false)
    (hlast : ∀ c, txt.getLast? = some c → jsIsSpace c = false)
    (hnl : nlOK txt) :
    goodBlockP (natStr idx ++ '\n' :: (srtTimeLine a b ++ '\n' :: txt)) := by
  obtain ⟨d, ds, hds⟩ : ∃ d ds, natStr idx = d :: ds := by
    cases h : natStr idx with
    | nil => exact absurd h (natStr_ne_nil idx)
    | cons d ds => exact ⟨d, ds, rfl⟩
  have hd : d.isDigit = true :=
    natStr_digits idx d (by rw [hds]; exact List.mem_cons_self _ _)
  have hheadmid : ∀ c, (srtTimeLine a b ++ '\n' :: txt).head? = some c →
      jsIsSpace c = false := by
    obtain ⟨a1, a2, a3, a4, a5, a6, a7, a8, a9, hadata, ha1, -⟩ := stts_shape a ha
    intro c hc
    rw [head?_append_left srtTimeLine_ne_nil, srtTimeLine] at hc
    rw [head?_append_left (show (secondsToTimeString (some a)).data ++
      (' ' :: arrow ++ [' ']) ≠ [] by rw [hadata]; simp)] at hc
    rw [head?_append_left (show (secondsToTimeString (some a)).data ≠ []
      by rw [hadata]; simp)] at hc
    rw [hadata, List.head?_cons] at hc
    exact (Option.some.inj hc) ▸ (digit_props ha1).1
  refine ⟨by simp [hds], ?_, ?_, ?_⟩
  · intro c hc
    rw [hds, List.cons_append, List.head?_cons] at hc
    exact (Option.some.inj hc) ▸ (digit_props hd).1
  · intro c hc
    rw [getLast?_append_right (show ('\n' :: (srtTimeLine a b ++ '\n' :: txt)) ≠ [] by simp),
      show ('\n' :: (srtTimeLine a b ++ '\n' :: txt))
        = ['\n'] ++ (srtTimeLine a b ++ '\n' :: txt) from rfl,
      getLast?_append_right (show (srtTimeLine a b ++ '\n' :: txt) ≠ [] by simp),
      getLast?_append_right (show ('\n' :: txt) ≠ [] by simp),
      show ('\n' :: txt) = ['\n'] ++ txt from rfl,
      getLast?_append_right htne] at hc
    exact hlast c hc
  · exact nlOK_append_cons (natStr_no_nl idx)
      (nlOK_append_cons (srtTimeLine_no_nl ha.1 hb.1) hnl hhead htne)
      hheadmid (by simp)


/-! ### The export blocks against the export groups -/

theorem block_assoc (A L2 T : List Char) :
    (A ++ '\n' :: L2) ++ '\n' :: T = A ++ '\n' :: (L2 ++ '\n' :: T) := by
  rw [List.append_assoc, List.cons_append]

theorem roundTripEntry_single (a : SubtitleEntry) :
    roundTripEntry [a] = ⟨msRoundQ a.startTime, msRoundQ a.endTime, ⟨a.text.data⟩, none⟩ := by
  rw [roundTripEntry]
  simp [joinChar_one, List.getLast_singleton]

theorem roundTripEntry_pair (a b : SubtitleEntry) :
    roundTripEntry [a, b] = ⟨msRoundQ a.startTime, msRoundQ b.endTime,
      ⟨a.text.data ++ '\n' :: b.text.data⟩, none⟩ := by
  rw [roundTripEntry]
  simp [joinChar_pair, List.getLast]

theorem renderBlock_no_cr {a b : ℚ} {txt : List Char} (h0a : 0 ≤ a) (h0b : 0 ≤ b)
    (idx : ℕ) (htxt : '\r' ∉ txt) :
    '\r' ∉ natStr idx ++ '\n' :: (srtTimeLine a b ++ '\n' :: txt) := by
  intro hm
  simp only [List.mem_append, List.mem_cons] at hm
  rcases hm with h | h | h | h | h
  · exact absurd (natStr_digits idx _ h) (by decide)
  · exact absurd h (by decide)
  · exact srtTimeLine_no_cr h0a h0b h
  · exact absurd h (by decide)
  · exact htxt h

/-- Every rendered block is well formed and free of carriage returns, and
parsing the rendered blocks yields exactly the per-group expected entries. -/
theorem toSrtBlocks_parse (l : List SubtitleEntry) :
    (∀ e ∈ l, goodTime e.startTime ∧ goodTime e.endTime ∧ goodText e.text) →
    ∀ idx : ℕ,
      (∀ b ∈ toSrtBlocks l idx, goodBlockP b ∧ '\r' ∉ b) ∧
      (toSrtBlocks l idx).map parseBlock
        = (toSrtGroups l).map (fun g => some (roundTripEntry g)) := by
  induction l using toSrtGroups.induct with
  | case1 =>
    intro _ idx
    exact ⟨by intro b hb; simp [toSrtBlocks] at hb, by simp [toSrtBlocks, toSrtGroups]⟩
  | case2 sub1 =>
    intro hl idx
    obtain ⟨hT1, hT2, hX⟩ := hl sub1 (List.mem_cons_self _ _)
    constructor
    · intro b hb
      rw [toSrtBlocks] at hb
      simp only [List.mem_singleton] at hb
      subst hb
      rw [block_assoc]
      exact ⟨renderBlock_good hT1 hT2 idx hX.1 (goodText_head hX) (goodText_last hX)
          (nlOK_of_not_mem hX.2.1),
        renderBlock_no_cr hT1.1 hT2.1 idx hX.2.2.1⟩
    · rw [toSrtBlocks, toSrtGroups, List.map_cons, List.map_nil, List.map_cons,
        List.map_nil]
      rw [block_assoc, parseBlock_render hT1 hT2 idx (goodText_head hX) (goodText_last hX)]
      rw [roundTripEntry_single]
  | case3 sub1 sub2 rest2 hcond ih =>
    intro hl idx
    obtain ⟨h1T1, h1T2, h1X⟩ := hl sub1 (List.mem_cons_self _ _)
    obtain ⟨h2T1, h2T2, h2X⟩ := hl sub2 (List.mem_cons_of_mem _ (List.mem_cons_self _ _))
    have hlrest : ∀ e ∈ rest2, goodTime e.startTime ∧ goodTime e.endTime ∧ goodText e.text :=
      fun e he => hl e (List.mem_cons_of_mem _ (List.mem_cons_of_mem _ he))
    have htxt_ne : sub1.text.data ++ '\n' :: sub2.text.data ≠ [] := by simp
    have htxt_head : ∀ c, (sub1.text.data ++ '\n' :: sub2.text.data).head? = some c →
        jsIsSpace c = false := by
      intro c hc'
      rw [head?_append_left h1X.1] at hc'
      exact goodText_head h1X c hc'
    have htxt_last : ∀ c, (sub1.text.data ++ '\n' :: sub2.text.data).getLast? = some c →
        jsIsSpace c = false := by
      intro c hc'
      rw [getLast?_append_right (show ('\n' :: sub2.text.data) ≠ [] by simp),
        show ('\n' :: sub2.text.data) = ['\n'] ++ sub2.text.data from rfl,
        getLast?_append_right h2X.1] at hc'
      exact goodText_last h2X c hc'
    have htxt_nl : nlOK (sub1.text.data ++ '\n' :: sub2.text.data) :=
      nlOK_append_cons h1X.2.1 (nlOK_of_not_mem h2X.2.1) (goodText_head h2X) h2X.1
    have htxt_cr : '\r' ∉ sub1.text.data ++ '\n' :: sub2.text.data := by
      intro hm
      simp only [List.mem_append, List.mem_cons] at hm
      rcases hm with h | h | h
      · exact h1X.2.2.1 h
      · exact absurd h (by decide)
      · exact h2X.2.2.1 h
    constructor
    · intro b hb
      rw [toSrtBlocks, if_pos hcond] at hb
      rcases List.mem_cons.mp hb with rfl | hb'
      · rw [block_assoc]
        exact ⟨renderBlock_good h1T1 h2T2 idx htxt_ne htxt_head htxt_last htxt_nl,
          renderBlock_no_cr h1T1.1 h2T2.1 idx htxt_cr⟩
      · exact ((ih hlrest (idx + 1)).1) b hb'
    · rw [toSrtBlocks, if_pos hcond, toSrtGroups, if_pos hcond, List.map_cons,
        List.map_cons]
      rw [block_assoc, parseBlock_render h1T1 h2T2 idx htxt_head htxt_last]
      rw [roundTripEntry_pair, ((ih hlrest (idx + 1)).2)]
  | case4 sub1 sub2 rest2 hcond ih =>
    intro hl idx
    obtain ⟨h1T1, h1T2, h1X⟩ := hl sub1 (List.mem_cons_self _ _)
    have hlrest : ∀ e ∈ sub2 :: rest2,
        goodTime e.startTime ∧ goodTime e.endTime ∧ goodText e.text :=
      fun e he => hl e (List.mem_cons_of_mem _ he)
    constructor
    · intro b hb
      rw [toSrtBlocks, if_neg hcond] at hb
      rcases List.mem_cons.mp hb with rfl | hb'
      · rw [block_assoc]
        exact ⟨renderBlock_good h1T1 h1T2 idx h1X.1 (goodText_head h1X)
            (goodText_last h1X) (nlOK_of_not_mem h1X.2.1),
          renderBlock_no_cr h1T1.1 h1T2.1 idx h1X.2.2.1⟩
      · exact ((ih hlrest (idx + 1)).1) b hb'
    · rw [toSrtBlocks, if_neg hcond, toSrtGroups, if_neg hcond, List.map_cons,
        List.map_cons]
      rw [block_assoc, parseBlock_render h1T1 h1T2 idx (goodText_head h1X)
        (goodText_last h1X)]
      rw [roundTripEntry_single, ((ih hlrest (idx + 1)).2)]

theorem toSrtBlocks_ne_nil (l : List SubtitleEntry) (h : l ≠ []) (idx : ℕ) :
    toSrtBlocks l idx ≠ [] := by
  match l, h with
  | [s], _ => rw [toSrtBlocks]; simp
  | s1 :: s2 :: r, _ =>
    rw [toSrtBlocks]
    split <;> simp

theorem sepJoin_no_cr : ∀ {bs : List (List Char)}, (∀ x ∈ bs, '\r' ∉ x) →
    '\r' ∉ sepJoin bs
  | [], _ => by simp [sepJoin]
  | x :: xs, h => by
    rw [sepJoin]
    intro hm
    simp only [List.mem_cons, List.mem_append] at hm
    rcases hm with h' | h' | h' | h'
    · exact absurd h' (by decide)
    · exact absurd h' (by decide)
    · exact h x (List.mem_cons_self _ _) h'
    · exact sepJoin_no_cr (fun y hy => h y (List.mem_cons_of_mem _ hy)) h'

theorem sepJoin_getLast? : ∀ (bs : List (List Char)) (b : List Char), b ≠ [] →
    (∀ x ∈ bs, x ≠ []) →
    ∃ y, (y = b ∨ y ∈ bs) ∧ (b ++ sepJoin bs).getLast? = y.getLast? := by
  intro bs
  induction bs with
  | nil =>
    intro b hb _
    exact ⟨b, Or.inl rfl, by rw [sepJoin]; simp⟩
  | cons x xs ih =>
    intro b hb hxs
    obtain ⟨y, hy, hlast⟩ := ih x (hxs x (List.mem_cons_self _ _))
      (fun z hz => hxs z (List.mem_cons_of_mem _ hz))
    refine ⟨y, ?_, ?_⟩
    · rcases hy with rfl | h
      · exact Or.inr (List.mem_cons_self _ _)
      · exact Or.inr (List.mem_cons_of_mem _ h)
    · rw [sepJoin,
        getLast?_append_right (show ('\n' :: '\n' :: (x ++ sepJoin xs)) ≠ [] by simp),
        show ('\n' :: '\n' :: (x ++ sepJoin xs)) = ['\n', '\n'] ++ (x ++ sepJoin xs)
          from rfl,
        getLast?_append_right (by simp [hxs x (List.mem_cons_self _ _)])]
      exact hlast

theorem reduceOption_map_some {α β : Type} (l : List α) (f : α → β) :
    (l.map (fun x => some (f x))).reduceOption = l.map f := by
  induction l with
  | nil => rfl
  | cons a as ih => simp [List.reduceOption_cons_of_some, ih]

/-- Splitting the parsed entries' texts back on newlines recovers every
group member's text in order. -/
theorem toSrtGroups_texts (l : List SubtitleEntry) :
    (∀ e ∈ l, goodText e.text) →
    ((toSrtGroups l).map
        (fun g => splitChar '\n' (roundTripEntry g).text.data)).flatten
      = l.map (fun e => e.text.data) := by
  induction l using toSrtGroups.induct with
  | case1 => intro _; simp [toSrtGroups]
  | case2 s =>
    intro hl
    rw [toSrtGroups, List.map_cons, List.map_nil, roundTripEntry_single]
    dsimp only
    rw [splitChar_not_mem (hl s (List.mem_cons_self _ _)).2.1]
    simp
  | case3 s1 s2 rest2 hcond ih =>
    intro hl
    have hlrest : ∀ e ∈ rest2, goodText e.text :=
      fun e he => hl e (List.mem_cons_of_mem _ (List.mem_cons_of_mem _ he))
    rw [toSrtGroups, if_pos hcond, List.map_cons, roundTripEntry_pair]
    dsimp only
    rw [splitChar_append (hl s1 (List.mem_cons_self _ _)).2.1,
      splitChar_not_mem (hl s2 (List.mem_cons_of_mem _ (List.mem_cons_self _ _))).2.1]
    rw [List.flatten_cons, ih hlrest]
    simp
  | case4 s1 s2 rest2 hcond ih =>
    intro hl
    have hlrest : ∀ e ∈ s2 :: rest2, goodText e.text :=
      fun e he => hl e (List.mem_cons_of_mem _ he)
    rw [toSrtGroups, if_neg hcond, List.map_cons, roundTripEntry_single]
    dsimp only
    rw [splitChar_not_mem (hl s1 (List.mem_cons_self _ _)).2.1]
    rw [List.flatten_cons, ih hlrest]
    simp


/-- C1 (amended): for entry sequences sorted by start time whose times are
representable by the serializer (non-negative, under 100 hours, millisecond
remainder rounding below 1000) and whose texts are non-empty, single-line,
carriage-return-free and trim-invariant, the round trip
`parseSrt (toSrt entries)` returns exactly one entry per export group —
start and end equal to the group's first start and last end rounded to
millisecond precision, text the newline-join of the member texts — and
re-splitting each parsed text on newlines recovers every original entry's
text in order. -/
theorem c1_roundtrip (entries : List SubtitleEntry)
    (hsorted : entries.Chain' (fun e f => e.startTime ≤ f.startTime))
    (hgood : ∀ e ∈ entries, goodTime e.startTime ∧ goodTime e.endTime ∧ goodText e.text) :
    parseSrt (toSrt entries none) = (toSrtGroups entries).map roundTripEntry ∧
    ((parseSrt (toSrt entries none)).map
        (fun e => splitChar '\n' e.text.data)).flatten
      = entries.map (fun e => e.text.data) := by
  have hmain : parseSrt (toSrt entries none) = (toSrtGroups entries).map roundTripEntry := by
    cases entries with
    | nil => with_unfolding_all exact of_decide_eq_true rfl
    | cons e0 l0 =>
      have hts : toSrt (e0 :: l0) none
          = ⟨List.intercalate ['\n', '\n'] (toSrtBlocks (e0 :: l0) 1)⟩ := by
        rw [toSrt, if_neg (by simp)]
        dsimp only
        rw [show jsTruthy none = false from rfl, Bool.false_and, if_neg (by simp)]
        rw [deepCopy_id]
      obtain ⟨b, bs, hbs⟩ : ∃ b bs, toSrtBlocks (e0 :: l0) 1 = b :: bs := by
        cases h : toSrtBlocks (e0 :: l0) 1 with
        | nil => exact absurd h (toSrtBlocks_ne_nil _ (by simp) 1)
        | cons b bs => exact ⟨b, bs, rfl⟩
      obtain ⟨hgoodb, hmap⟩ := toSrtBlocks_parse (e0 :: l0) hgood 1
      have hb_good : goodBlockP b ∧ '\r' ∉ b :=
        hgoodb b (by rw [hbs]; exact List.mem_cons_self _ _)
      have hbs_good : ∀ x ∈ bs, goodBlockP x ∧ '\r' ∉ x :=
        fun x hx => hgoodb x (by rw [hbs]; exact List.mem_cons_of_mem _ hx)
      have hS : (toSrt (e0 :: l0) none).data = b ++ sepJoin bs := by
        rw [hts]
        rw [show (⟨List.intercalate ['\n', '\n'] (toSrtBlocks (e0 :: l0) 1)⟩ : String).data
            = List.intercalate ['\n', '\n'] (toSrtBlocks (e0 :: l0) 1) from rfl]
        rw [hbs, intercalate_cons_sepJoin]
      have htrim : jsTrim (b ++ sepJoin bs) = b ++ sepJoin bs := by
        apply jsTrim_eq_self
        · intro c hc
          rw [head?_append_left hb_good.1.1] at hc
          exact hb_good.1.2.1 c hc
        · intro c hc
          obtain ⟨y, hy, hl⟩ :=
            sepJoin_getLast? bs b hb_good.1.1 (fun x hx => (hbs_good x hx).1.1)
          rw [hl] at hc
          rcases hy with rfl | hmem
          · exact hb_good.1.2.2.1 c hc
          · exact ((hbs_good y hmem).1).2.2.1 c hc
      have hcr : replaceCRLF (b ++ sepJoin bs) = b ++ sepJoin bs := by
        apply replaceCRLF_eq_self
        intro hm
        rcases List.mem_append.mp hm with h | h
        · exact hb_good.2 h
        · exact sepJoin_no_cr (fun x hx => (hbs_good x hx).2) h
      rw [parseSrt, hS, if_neg (by simp [hb_good.1.1])]
      dsimp only
      rw [htrim, hcr,
        splitBlocks_join hb_good.1.2.2.2 (fun x hx => (hbs_good x hx).1)]
      rw [← hbs, hmap, reduceOption_map_some]
  refine ⟨hmain, ?_⟩
  rw [hmain, List.map_map]
  rw [show ((fun e : SubtitleEntry => splitChar '\n' e.text.data) ∘ roundTripEntry)
      = (fun g => splitChar '\n' (roundTripEntry g).text.data) from rfl]
  exact toSrtGroups_texts entries (fun e he => (hgood e he).2.2)

theorem c1_witness :
    (([⟨0, 1, "hi", none⟩, ⟨1.2, 2, "there", none⟩, ⟨2.1, 3, "friend.", none⟩] :
        List SubtitleEntry).Chain' (fun e f => e.startTime ≤ f.startTime) ∧
      (∀ e ∈ ([⟨0, 1, "hi", none⟩, ⟨1.2, 2, "there", none⟩, ⟨2.1, 3, "friend.", none⟩] :
          List SubtitleEntry),
        goodTime e.startTime ∧ goodTime e.endTime ∧ goodText e.text)) ∧
    (parseSrt (toSrt [⟨0, 1, "hi", none⟩, ⟨1.2, 2, "there", none⟩,
          ⟨2.1, 3, "friend.", none⟩] none)
        = (toSrtGroups [⟨0, 1, "hi", none⟩, ⟨1.2, 2, "there", none⟩,
            ⟨2.1, 3, "friend.", none⟩]).map roundTripEntry ∧
      ((parseSrt (toSrt [⟨0, 1, "hi", none⟩, ⟨1.2, 2, "there", none⟩,
            ⟨2.1, 3, "friend.", none⟩] none)).map
          (fun e => splitChar '\n' e.text.data)).flatten
        = ([⟨0, 1, "hi", none⟩, ⟨1.2, 2, "there", none⟩,
            ⟨2.1, 3, "friend.", none⟩] : List SubtitleEntry).map
            (fun e => e.text.data)) :=
  ⟨⟨(List.Chain'.cons (by with_unfolding_all exact of_decide_eq_true rfl)
      (List.Chain'.cons (by with_unfolding_all exact of_decide_eq_true rfl)
        (List.chain'_singleton _))),
    by with_unfolding_all exact of_decide_eq_true rfl⟩,
   c1_roundtrip
     [⟨0, 1, "hi", none⟩, ⟨1.2, 2, "there", none⟩, ⟨2.1, 3, "friend.", none⟩]
     (List.Chain'.cons (by with_unfolding_all exact of_decide_eq_true rfl)
      (List.Chain'.cons (by with_unfolding_all exact of_decide_eq_true rfl)
        (List.chain'_singleton _)))
     (by with_unfolding_all exact of_decide_eq_true rfl)⟩

end SubGen
